import Mathlib

/-!
Verification development for the yorkie-js-sdk client core: a shallow
embedding of `document/crdt/rga_tree_split.ts`, `document/crdt/text.ts`,
`document/operation/style_operation.ts` and the Document/ChangeContext layer
of `document/change/context.ts`, together with theorems about the embedded
definitions.

Machine integers: the TypeScript code uses `bigint` for Lamport values and
`number` for offsets/indexes; both are modelled as `Nat` (no overflow occurs
in either, `bigint` is unbounded and offsets are small array indexes).
Document sizes are modelled as `Int` (size diffs can be negative).
The splay tree and LLRB tree are pure index structures over the underlying
doubly linked node list; the embedding represents an `RGATreeSplit` as its
node list in document order and gives the index structures their
specification-level semantics (weighted rank, floor entry).
-/

namespace Yorkie

/-- Modelled from the spec: `TimeTicket = ⟨lamport: u64, delimiter: u32,
actor: ActorID⟩` (§3); the source file `document/time/ticket.ts` is not among
the provided sources.  Actor ids are 16-byte opaque identifiers with a total
order; they are modelled as `Nat`. -/
structure TimeTicket where
  lamport : Nat
  delimiter : Nat
  actor : Nat
deriving DecidableEq, Repr

/-- Modelled from the spec: a designated `InitialTimeTicket` is the minimum
of the ticket order. -/
def InitialTimeTicket : TimeTicket := ⟨0, 0, 0⟩

/-- Modelled from the spec: `MaxLamport` sentinel substituted for the client
lamport on local edits ("the editor has seen everything"). -/
def MaxLamport : Nat := 2 ^ 63 - 1

/-- Modelled from the spec: total order on tickets, lamport ascending, then
actor ascending, then delimiter ascending (§3). -/
def TimeTicket.compare (a b : TimeTicket) : Ordering :=
  if a.lamport < b.lamport then .lt
  else if b.lamport < a.lamport then .gt
  else if a.actor < b.actor then .lt
  else if b.actor < a.actor then .gt
  else if a.delimiter < b.delimiter then .lt
  else if b.delimiter < a.delimiter then .gt
  else .eq

/-- Modelled from the spec: `after(b) ≡ compare > 0` (§4.1). -/
def TimeTicket.after (a b : TimeTicket) : Bool :=
  decide (a.compare b = Ordering.gt)

/-- Strict order on tickets as a proposition, for reasoning. -/
def TimeTicket.ltP (a b : TimeTicket) : Prop :=
  a.lamport < b.lamport ∨
    (a.lamport = b.lamport ∧
      (a.actor < b.actor ∨ (a.actor = b.actor ∧ a.delimiter < b.delimiter)))

instance (a b : TimeTicket) : Decidable (TimeTicket.ltP a b) := by
  unfold TimeTicket.ltP
  infer_instance

theorem tt_compare_lt_iff (a b : TimeTicket) :
    a.compare b = Ordering.lt ↔ TimeTicket.ltP a b := by
  unfold TimeTicket.compare TimeTicket.ltP
  repeat' split
  all_goals simp_all
  all_goals omega

theorem tt_compare_gt_iff (a b : TimeTicket) :
    a.compare b = Ordering.gt ↔ TimeTicket.ltP b a := by
  unfold TimeTicket.compare TimeTicket.ltP
  repeat' split
  all_goals simp_all
  all_goals omega

theorem tt_compare_eq_iff (a b : TimeTicket) :
    a.compare b = Ordering.eq ↔ a = b := by
  cases a
  cases b
  unfold TimeTicket.compare
  simp only [TimeTicket.mk.injEq]
  repeat' split
  all_goals simp_all
  all_goals omega

theorem tt_after_iff (a b : TimeTicket) :
    a.after b = true ↔ TimeTicket.ltP b a := by
  unfold TimeTicket.after
  rw [decide_eq_true_eq]
  exact tt_compare_gt_iff a b

theorem ttlt_trans {a b c : TimeTicket} :
    TimeTicket.ltP a b → TimeTicket.ltP b c → TimeTicket.ltP a c := by
  unfold TimeTicket.ltP
  intro h1 h2
  rcases a with ⟨al, ad, aa⟩
  rcases b with ⟨bl, bd, ba⟩
  rcases c with ⟨cl, cd, ca⟩
  simp_all only
  omega

theorem ttlt_irrefl (a : TimeTicket) : ¬ TimeTicket.ltP a a := by
  unfold TimeTicket.ltP
  omega

theorem ttlt_total (a b : TimeTicket) :
    TimeTicket.ltP a b ∨ a = b ∨ TimeTicket.ltP b a := by
  rcases a with ⟨al, ad, aa⟩
  rcases b with ⟨bl, bd, ba⟩
  unfold TimeTicket.ltP
  simp only [TimeTicket.mk.injEq]
  omega

/-- The id of a split node: creation ticket plus offset into the original
content (`RGATreeSplitNodeID` in `rga_tree_split.ts`). -/
structure RGATreeSplitNodeID where
  createdAt : TimeTicket
  offset : Nat
deriving DecidableEq, Repr

/-- Comparator from `RGATreeSplitNode.createComparator`: creation ticket
first, then offset. -/
def RGATreeSplitNodeID.compare (p1 p2 : RGATreeSplitNodeID) : Ordering :=
  match TimeTicket.compare p1.createdAt p2.createdAt with
  | .eq =>
    if p1.offset > p2.offset then .gt
    else if p1.offset < p2.offset then .lt
    else .eq
  | c => c

/-- The id comparator's strict order as a proposition. -/
def RGATreeSplitNodeID.ltP (a b : RGATreeSplitNodeID) : Prop :=
  TimeTicket.ltP a.createdAt b.createdAt ∨
    (a.createdAt = b.createdAt ∧ a.offset < b.offset)

instance (a b : RGATreeSplitNodeID) : Decidable (RGATreeSplitNodeID.ltP a b) := by
  unfold RGATreeSplitNodeID.ltP
  infer_instance

theorem id_compare_lt_iff (a b : RGATreeSplitNodeID) :
    RGATreeSplitNodeID.compare a b = Ordering.lt ↔ RGATreeSplitNodeID.ltP a b := by
  unfold RGATreeSplitNodeID.compare RGATreeSplitNodeID.ltP
  rcases h : TimeTicket.compare a.createdAt b.createdAt with _ | _ | _
  · have hlt := (tt_compare_lt_iff _ _).mp h
    simp [h, hlt]
  · have heq : a.createdAt = b.createdAt := (tt_compare_eq_iff _ _).mp h
    have hnlt : ¬ TimeTicket.ltP a.createdAt b.createdAt := by
      rw [heq]
      exact ttlt_irrefl _
    repeat' split
    all_goals simp_all
    all_goals omega
  · have hgt : TimeTicket.ltP b.createdAt a.createdAt := (tt_compare_gt_iff _ _).mp h
    have hne : ¬ (a.createdAt = b.createdAt) := by
      intro heq
      rw [heq] at hgt
      exact ttlt_irrefl _ hgt
    have hnlt : ¬ TimeTicket.ltP a.createdAt b.createdAt := by
      intro hl
      exact ttlt_irrefl _ (ttlt_trans hl hgt)
    simp_all

theorem id_compare_gt_iff (a b : RGATreeSplitNodeID) :
    RGATreeSplitNodeID.compare a b = Ordering.gt ↔ RGATreeSplitNodeID.ltP b a := by
  unfold RGATreeSplitNodeID.compare RGATreeSplitNodeID.ltP
  rcases h : TimeTicket.compare a.createdAt b.createdAt with _ | _ | _
  · have hlt : TimeTicket.ltP a.createdAt b.createdAt := (tt_compare_lt_iff _ _).mp h
    have hne : ¬ (b.createdAt = a.createdAt) := by
      intro heq
      rw [heq] at hlt
      exact ttlt_irrefl _ hlt
    have hnlt : ¬ TimeTicket.ltP b.createdAt a.createdAt := by
      intro hl
      exact ttlt_irrefl _ (ttlt_trans hl hlt)
    simp_all
  · have heq : a.createdAt = b.createdAt := (tt_compare_eq_iff _ _).mp h
    have hnlt : ¬ TimeTicket.ltP b.createdAt a.createdAt := by
      rw [heq]
      exact ttlt_irrefl _
    repeat' split
    all_goals simp_all
  · have hgt := (tt_compare_gt_iff _ _).mp h
    simp [h, hgt]

theorem id_compare_eq_iff (a b : RGATreeSplitNodeID) :
    RGATreeSplitNodeID.compare a b = Ordering.eq ↔ a = b := by
  unfold RGATreeSplitNodeID.compare
  rcases a with ⟨ac, ao⟩
  rcases b with ⟨bc, bo⟩
  rcases h : TimeTicket.compare ac bc with _ | _ | _
  · have : ¬ (ac = bc) := by
      intro heq
      rw [heq] at h
      rw [tt_compare_lt_iff] at h
      exact ttlt_irrefl _ h
    simp_all
  · have heq : ac = bc := (tt_compare_eq_iff _ _).mp h
    repeat' split
    all_goals simp_all
    all_goals omega
  · have : ¬ (ac = bc) := by
      intro heq
      rw [heq] at h
      rw [tt_compare_gt_iff] at h
      exact ttlt_irrefl _ h
    simp_all

theorem idlt_trans {a b c : RGATreeSplitNodeID} :
    RGATreeSplitNodeID.ltP a b → RGATreeSplitNodeID.ltP b c →
    RGATreeSplitNodeID.ltP a c := by
  unfold RGATreeSplitNodeID.ltP
  intro h1 h2
  rcases h1 with h1 | ⟨he1, ho1⟩
  · rcases h2 with h2 | ⟨he2, ho2⟩
    · exact Or.inl (ttlt_trans h1 h2)
    · exact Or.inl (he2 ▸ h1)
  · rcases h2 with h2 | ⟨he2, ho2⟩
    · exact Or.inl (he1 ▸ h2)
    · exact Or.inr ⟨he1.trans he2, ho1.trans ho2⟩

theorem idlt_irrefl (a : RGATreeSplitNodeID) : ¬ RGATreeSplitNodeID.ltP a a := by
  unfold RGATreeSplitNodeID.ltP
  intro h
  rcases h with h | ⟨_, h⟩
  · exact ttlt_irrefl _ h
  · omega

theorem idlt_total (a b : RGATreeSplitNodeID) :
    RGATreeSplitNodeID.ltP a b ∨ a = b ∨ RGATreeSplitNodeID.ltP b a := by
  rcases a with ⟨ac, ao⟩
  rcases b with ⟨bc, bo⟩
  rcases ttlt_total ac bc with h | h | h
  · exact Or.inl (Or.inl h)
  · subst h
    unfold RGATreeSplitNodeID.ltP
    simp only [RGATreeSplitNodeID.mk.injEq, true_and]
    omega
  · exact Or.inr (Or.inr (Or.inl h))

/-- Same creation ticket test (`hasSameCreatedAt`). -/
def RGATreeSplitNodeID.hasSameCreatedAt (a b : RGATreeSplitNodeID) : Bool :=
  decide (TimeTicket.compare a.createdAt b.createdAt = Ordering.eq)

theorem id_hasSameCreatedAt_iff (a b : RGATreeSplitNodeID) :
    a.hasSameCreatedAt b = true ↔ a.createdAt = b.createdAt := by
  unfold RGATreeSplitNodeID.hasSameCreatedAt
  rw [decide_eq_true_eq]
  exact tt_compare_eq_iff _ _

/-- A position inside the split list (`RGATreeSplitPos`). -/
structure RGATreeSplitPos where
  id : RGATreeSplitNodeID
  relativeOffset : Nat
deriving DecidableEq, Repr

/-- Absolute id of a position (`getAbsoluteID`). -/
def RGATreeSplitPos.getAbsoluteID (p : RGATreeSplitPos) : RGATreeSplitNodeID :=
  ⟨p.id.createdAt, p.id.offset + p.relativeOffset⟩

/-- One attribute entry of the replicated hash table: key, value, update
ticket (the `RHTNode` of `document/crdt/rht.ts`, which is not among the
provided sources; modelled from the spec §4.2). -/
structure RHTEntry where
  key : String
  value : String
  updatedAt : TimeTicket
deriving DecidableEq, Repr

/-- The value carried by a text node: content string (as a char list) plus an
attribute RHT (`CRDTTextValue` of `text.ts`; the RHT itself is modelled from
the spec §4.2 as an association list). -/
structure CRDTTextValue where
  content : List Char
  attributes : List RHTEntry
deriving DecidableEq, Repr

/-- A node of the split list (`RGATreeSplitNode`).  The TypeScript class
carries four pointers `prev/next/insPrev/insNext`; document order is the
position in the state's node list and the insertion-sibling chain is kept as
the `insPrev` id (`insNext` is its inverse), so only `insPrev` is stored. -/
structure RGATreeSplitNode where
  id : RGATreeSplitNodeID
  value : Option CRDTTextValue
  removedAt : Option TimeTicket
  insPrev : Option RGATreeSplitNodeID
deriving DecidableEq, Repr

/-- Content length of a node (`getContentLength`, `(value && value.length) || 0`). -/
def RGATreeSplitNode.getContentLength (n : RGATreeSplitNode) : Nat :=
  match n.value with
  | none => 0
  | some v => v.content.length

/-- Visible length: 0 for a tombstone (`getLength`). -/
def RGATreeSplitNode.getLength (n : RGATreeSplitNode) : Nat :=
  if n.removedAt.isSome then 0 else n.getContentLength

/-- Tombstone test (`isRemoved`). -/
def RGATreeSplitNode.isRemoved (n : RGATreeSplitNode) : Bool :=
  n.removedAt.isSome

/-- Shared guard of `canDelete`/`canStyle`:
`!this.removedAt || editedAt.after(this.removedAt)`. -/
def notRemovedOrAfter (editedAt : TimeTicket) (removedAt : Option TimeTicket) : Bool :=
  match removedAt with
  | none => true
  | some r => editedAt.after r

/-- Deletability check (`RGATreeSplitNode.canDelete`). -/
def RGATreeSplitNode.canDelete (n : RGATreeSplitNode) (editedAt : TimeTicket)
    (clientLamportAtChange : Nat) : Bool :=
  let justRemoved := n.removedAt.isNone
  let nodeExisted := decide (n.id.createdAt.lamport ≤ clientLamportAtChange)
  if nodeExisted && notRemovedOrAfter editedAt n.removedAt then justRemoved
  else false

/-- Deletability as the specification text words it, for comparison with the
source's `canDelete`: created-before-or-at the client's view AND
not-removed-or-`editedAt.after(removedAt)` (no condition on `removedAt` being
empty). -/
def specDeletable (n : RGATreeSplitNode) (editedAt : TimeTicket)
    (clientLamportAtChange : Nat) : Bool :=
  decide (n.id.createdAt.lamport ≤ clientLamportAtChange) &&
    notRemovedOrAfter editedAt n.removedAt

/-- Stylability check (`RGATreeSplitNode.canStyle`). -/
def RGATreeSplitNode.canStyle (n : RGATreeSplitNode) (editedAt : TimeTicket)
    (clientLamportAtChange : Nat) : Bool :=
  let nodeExisted := decide (n.id.createdAt.lamport ≤ clientLamportAtChange)
  nodeExisted && notRemovedOrAfter editedAt n.removedAt

/-- Position range of a node (`createPosRange`): start at offset 0, end at the
visible length. -/
def RGATreeSplitNode.createPosRange (n : RGATreeSplitNode) :
    RGATreeSplitPos × RGATreeSplitPos :=
  (⟨n.id, 0⟩, ⟨n.id, n.getLength⟩)

/-- Shallow copy of one node without structural info
(`RGATreeSplitNode.deepcopy`). -/
def RGATreeSplitNode.deepcopyNode (n : RGATreeSplitNode) : RGATreeSplitNode :=
  ⟨n.id, n.value, n.removedAt, none⟩

/-- Id of the permanent head sentinel (`InitialRGATreeSplitNodeID`). -/
def initialNodeID : RGATreeSplitNodeID := ⟨InitialTimeTicket, 0⟩

/-- The head sentinel node created by the `RGATreeSplit` constructor. -/
def headNode : RGATreeSplitNode := ⟨initialNodeID, none, none, none⟩

/-- The split list state: its nodes in document order, head sentinel first. -/
structure RGATreeSplit where
  nodes : List RGATreeSplitNode
deriving DecidableEq, Repr

/-- Fresh empty split list (the `RGATreeSplit` constructor). -/
def RGATreeSplit.create : RGATreeSplit := ⟨[headNode]⟩

/-- Sum of visible lengths (the weight the splay tree maintains). -/
def visibleLength (nodes : List RGATreeSplitNode) : Nat :=
  (nodes.map RGATreeSplitNode.getLength).sum

/-- Total visible length of the split list (`RGATreeSplit.length`, the splay
tree root weight). -/
def RGATreeSplit.length (s : RGATreeSplit) : Nat :=
  visibleLength s.nodes

/-- Modelled from the spec: splay-tree `find(index)` returns the node whose
visible prefix sum covers the index, plus the residual offset (§4.2); on the
flattened node list this is the first node whose cumulative visible length
reaches the index. -/
def splayFind : List RGATreeSplitNode → Nat → Option (RGATreeSplitNode × Nat)
  | [], _ => none
  | n :: rest, i =>
    if i ≤ n.getLength then some (n, i) else splayFind rest (i - n.getLength)

/-- Modelled from the spec: splay-tree `indexOf(node)` returns the visible
rank of the node, i.e. the sum of the visible lengths of the nodes before it. -/
def indexOfId : List RGATreeSplitNode → RGATreeSplitNodeID → Option Nat
  | [], _ => none
  | n :: rest, i =>
    if n.id = i then some 0 else (indexOfId rest i).map (n.getLength + ·)

/-- One step of the floor computation: keep the better (greater, but still
≤ `id`) of the current best entry and the node `n`. -/
def floorStep (cur : Option RGATreeSplitNode) (n : RGATreeSplitNode)
    (id : RGATreeSplitNodeID) : Option RGATreeSplitNode :=
  match cur with
  | none =>
    if RGATreeSplitNodeID.compare n.id id ≠ Ordering.gt then some n else none
  | some b =>
    if RGATreeSplitNodeID.compare n.id id ≠ Ordering.gt ∧
        RGATreeSplitNodeID.compare b.id n.id = Ordering.lt then some n
    else some b

/-- Modelled from the spec: LLRB `floorEntry(id)` returns the entry with the
greatest key ≤ id (§4.2), over the set of node ids. -/
def floorEntry : List RGATreeSplitNode → RGATreeSplitNodeID → Option RGATreeSplitNode
  | [], _ => none
  | n :: rest, id => floorStep (floorEntry rest id) n id

/-- Floor lookup restricted to the same creation ticket
(`RGATreeSplit.findFloorNode`). -/
def findFloorNode (nodes : List RGATreeSplitNode) (id : RGATreeSplitNodeID) :
    Option RGATreeSplitNode :=
  match floorEntry nodes id with
  | none => none
  | some e =>
    if e.id = id ∨ e.id.hasSameCreatedAt id then some e else none

/-- Exact lookup of a node by id (resolution of a TypeScript node pointer in
the list representation). -/
def findById (nodes : List RGATreeSplitNode) (id : RGATreeSplitNodeID) :
    Option RGATreeSplitNode :=
  nodes.find? (fun n => n.id = id)

/-- Floor lookup preferring the left sibling at an exact split boundary
(`RGATreeSplit.findFloorNodePreferToLeft`); `none` models the thrown
`ErrInvalidArgument`. -/
def findFloorNodePreferToLeft (nodes : List RGATreeSplitNode)
    (id : RGATreeSplitNodeID) : Option RGATreeSplitNode :=
  match findFloorNode nodes id with
  | none => none
  | some node =>
    if 0 < id.offset ∧ node.id.offset = id.offset then
      match node.insPrev with
      | none => some node
      | some pid => findById nodes pid
    else some node

/-- Position-to-index conversion (`RGATreeSplit.posToIndex`); `none` models
the thrown `ErrInvalidArgument`. -/
def RGATreeSplit.posToIndex (s : RGATreeSplit) (pos : RGATreeSplitPos)
    (preferToLeft : Bool) : Option Nat :=
  let absoluteID := pos.getAbsoluteID
  match (if preferToLeft then findFloorNodePreferToLeft s.nodes absoluteID
         else findFloorNode s.nodes absoluteID) with
  | none => none
  | some node =>
    match indexOfId s.nodes node.id with
    | none => none
    | some index =>
      let offset := if node.isRemoved then 0 else absoluteID.offset - node.id.offset
      some (index + offset)

/-- Index-to-position conversion (`RGATreeSplit.indexToPos`). -/
def RGATreeSplit.indexToPos (s : RGATreeSplit) (idx : Nat) :
    Option RGATreeSplitPos :=
  (splayFind s.nodes idx).map (fun p => ⟨p.1.id, p.2⟩)

/-- Both ends of a position range as indexes
(`RGATreeSplit.findIndexesFromRange`): left end with `preferToLeft = false`,
right end with `preferToLeft = true`. -/
def RGATreeSplit.findIndexesFromRange (s : RGATreeSplit)
    (range : RGATreeSplitPos × RGATreeSplitPos) : Option (Nat × Nat) := do
  let f ← s.posToIndex range.1 false
  let t ← s.posToIndex range.2 true
  return (f, t)

/-- Concatenated visible content (`RGATreeSplit.toString`, which joins the
values of the non-removed nodes after the head). -/
def RGATreeSplit.toStr (s : RGATreeSplit) : List Char :=
  ((s.nodes.drop 1).filter (fun n => !n.isRemoved)).foldr
    (fun n acc =>
      (match n.value with
       | none => []
       | some v => v.content) ++ acc) []

/-- Left half of `splitValue`: `value.substring(0, offset)`; `substring`
copies the attribute RHT. -/
def splitValueLeft (v : CRDTTextValue) (offset : Nat) : CRDTTextValue :=
  ⟨v.content.take offset, v.attributes⟩

/-- Right half of `splitValue`: `value.substring(offset, value.length)`. -/
def splitValueRight (v : CRDTTextValue) (offset : Nat) : CRDTTextValue :=
  ⟨v.content.drop offset, v.attributes⟩

/-- Rewiring step of `splitNode`: the old `insNext` of the split node (the
node whose `insPrev` is the split node) is re-pointed at the new right half
(`insNext.setInsPrev(splitNode)`). -/
def rewireInsNext (nodes : List RGATreeSplitNode)
    (nid rightId : RGATreeSplitNodeID) : List RGATreeSplitNode :=
  nodes.map (fun w =>
    if w.insPrev = some nid ∧ w.id ≠ nid then { w with insPrev := some rightId }
    else w)

/-- Replacement step of `splitNode`: the node with id `nid` becomes its left
half and the freshly created right half (id offset shifted by `offset`, same
`removedAt`, `insPrev` pointing at the left half) is inserted right after it. -/
def replaceSplit : List RGATreeSplitNode → RGATreeSplitNodeID → Nat →
    List RGATreeSplitNode
  | [], _, _ => []
  | n :: rest, nid, offset =>
    if n.id = nid then
      match n.value with
      | none => n :: rest
      | some v =>
        { n with value := some (splitValueLeft v offset) } ::
        ⟨⟨n.id.createdAt, n.id.offset + offset⟩, some (splitValueRight v offset),
          n.removedAt, some n.id⟩ :: rest
    else n :: replaceSplit rest nid offset

/-- Node splitting (`RGATreeSplit.splitNode`): no-op at offset 0 or at the
content length, otherwise splits the node with id `nid` in two; `none` models
the thrown `ErrInvalidArgument` when `offset > getContentLength`. -/
def splitNodeAt (s : RGATreeSplit) (nid : RGATreeSplitNodeID) (offset : Nat) :
    Option RGATreeSplit :=
  match findById s.nodes nid with
  | none => none
  | some u =>
    if u.getContentLength < offset then none
    else if offset = 0 then some s
    else if offset = u.getContentLength then some s
    else
      some ⟨replaceSplit (rewireInsNext s.nodes nid ⟨nid.createdAt, nid.offset + offset⟩)
        nid offset⟩

/-- List-level insertion after the node with id `pid`
(`RGATreeSplit.insertAfter`); `none` when the predecessor is absent (in the
TypeScript code the predecessor is given as a live pointer). -/
def insertAfterL : List RGATreeSplitNode → RGATreeSplitNodeID →
    RGATreeSplitNode → Option (List RGATreeSplitNode)
  | [], _, _ => none
  | n :: rest, pid, newNode =>
    if n.id = pid then some (n :: newNode :: rest)
    else (insertAfterL rest pid newNode).map (n :: ·)

/-- Suffix of the node list starting at the node with id `nid` (walking the
`next` chain from that node). -/
def suffixFrom : List RGATreeSplitNode → RGATreeSplitNodeID →
    Option (List RGATreeSplitNode)
  | [], _ => none
  | n :: rest, nid => if n.id = nid then some (n :: rest) else suffixFrom rest nid

/-- The concurrent-insert walk of `findNodeWithSplit`:
`while (node.hasNext() && node.getNext().getCreatedAt().after(editedAt)) node = node.getNext()`;
returns the final node and its successor. -/
def skipConcurrentNodes (editedAt : TimeTicket) :
    RGATreeSplitNode → List RGATreeSplitNode →
    RGATreeSplitNode × Option RGATreeSplitNode
  | u, [] => (u, none)
  | u, w :: rest =>
    if w.id.createdAt.after editedAt then skipConcurrentNodes editedAt w rest
    else (u, some w)

/-- Split at a position and return the insertion gap
(`RGATreeSplit.findNodeWithSplit`): floor lookup preferring the left sibling,
split at the residual offset, then walk over nodes created after `editedAt`. -/
def RGATreeSplit.findNodeWithSplit (s : RGATreeSplit) (pos : RGATreeSplitPos)
    (editedAt : TimeTicket) :
    Option (RGATreeSplit × RGATreeSplitNode × Option RGATreeSplitNode) := do
  let absoluteID := pos.getAbsoluteID
  let node ← findFloorNodePreferToLeft s.nodes absoluteID
  let relativeOffset := absoluteID.offset - node.id.offset
  let s1 ← splitNodeAt s node.id relativeOffset
  let suffix ← suffixFrom s1.nodes node.id
  match suffix with
  | [] => none
  | u :: rest => some (s1, skipConcurrentNodes editedAt u rest)

/-- Nodes from `fromNode` (inclusive) up to `toNode` (exclusive; `none` means
walk to the end of the list) — `RGATreeSplit.findBetween`. -/
def RGATreeSplit.findBetween (s : RGATreeSplit) (fromId : RGATreeSplitNodeID)
    (toId : Option RGATreeSplitNodeID) : Option (List RGATreeSplitNode) := do
  let suffix ← suffixFrom s.nodes fromId
  return suffix.takeWhile (fun n => decide (some n.id ≠ toId))

/-- Predecessor of the node with id `nid` in document order (`getPrev`). -/
def prevOf : List RGATreeSplitNode → RGATreeSplitNodeID →
    Option RGATreeSplitNode
  | [], _ => none
  | [_], _ => none
  | a :: b :: rest, nid =>
    if b.id = nid then some a
    else if a.id = nid then none
    else prevOf (b :: rest) nid

/-- Successor of the node with id `nid` in document order (`getNext`). -/
def nextOf : List RGATreeSplitNode → RGATreeSplitNodeID →
    Option RGATreeSplitNode
  | [], _ => none
  | a :: rest, nid => if a.id = nid then rest.head? else nextOf rest nid

/-- Version vector (time layer; `document/time/version_vector.ts` is not
among the provided sources).  Modelled from the spec: a mapping from actor to
Lamport value with `get` (§3). -/
structure VersionVector where
  entries : List (Nat × Nat)
deriving DecidableEq, Repr

/-- Lookup of an actor's Lamport value (`VersionVector.get`). -/
def VersionVector.get (vv : VersionVector) (actor : Nat) : Option Nat :=
  vv.entries.lookup actor

/-- Client lamport for a node's actor, as computed inline by
`RGATreeSplit.filterNodes` and `CRDTText.setStyle`: `MaxLamport` for a local
edit (no version vector), else `versionVector.get(actorID) ? · : 0n`. -/
def clientLamportAt (versionVector : Option VersionVector) (actor : Nat) : Nat :=
  match versionVector with
  | none => MaxLamport
  | some vv =>
    match vv.get actor with
    | some v => v
    | none => 0

/-- One entry of the change list an edit reports (`ValueChange<T>`). -/
structure ValueChange where
  actor : Nat
  fromIdx : Nat
  toIdx : Nat
  value : Option CRDTTextValue
deriving DecidableEq, Repr

/-- Edges just outside the candidate run
(`RGATreeSplit.findEdgesOfCandidates`): the predecessor of the first
candidate and the successor of the last (`none` when the candidates reach the
end of the text). -/
def findEdgesOfCandidates (s : RGATreeSplit)
    (candidates : List RGATreeSplitNode) :
    Option (RGATreeSplitNode × Option RGATreeSplitNode) :=
  match candidates with
  | [] => none
  | c :: _ =>
    match candidates.getLast? with
    | none => none
    | some lastC =>
      match prevOf s.nodes c.id with
      | none => none
      | some left => some (left, nextOf s.nodes lastC.id)

/-- Candidate filtering (`RGATreeSplit.filterNodes`): splits the candidates
into deletable nodes and kept nodes, and brackets the kept nodes with the two
edges. -/
def RGATreeSplit.filterNodes (s : RGATreeSplit)
    (candidates : List RGATreeSplitNode) (editedAt : TimeTicket)
    (versionVector : Option VersionVector) :
    Option (List RGATreeSplitNode × List (Option RGATreeSplitNode)) :=
  match findEdgesOfCandidates s candidates with
  | none => none
  | some (leftEdge, rightEdge) =>
    let nodesToDelete := candidates.filter
      (fun n => n.canDelete editedAt (clientLamportAt versionVector n.id.createdAt.actor))
    let kept := candidates.filter
      (fun n => !n.canDelete editedAt (clientLamportAt versionVector n.id.createdAt.actor))
    some (nodesToDelete, some leftEdge :: kept.map some ++ [rightEdge])

/-- Per-boundary-pair loop of `RGATreeSplit.makeChanges`, in ascending order
(the source pushes ascending and reverses at the end). -/
def makeChangesAsc (s : RGATreeSplit) (editedAt : TimeTicket) :
    List (Option RGATreeSplitNode) → Option (List ValueChange)
  | [] => some []
  | [_] => some []
  | lb :: rb :: rest => do
    let more ← makeChangesAsc s editedAt (rb :: rest)
    let lbNode ← lb
    let nxt := nextOf s.nodes lbNode.id
    if (nxt.map (·.id)) = (rb.map (·.id)) then
      return more
    else do
      let nxtNode ← nxt
      let fromPair ← s.findIndexesFromRange nxtNode.createPosRange
      let toIdx ← (match rb with
        | some rbNode => do
          let p ← prevOf s.nodes rbNode.id
          let toPair ← s.findIndexesFromRange p.createPosRange
          pure toPair.2
        | none => pure s.length)
      if fromPair.1 < toIdx then
        return ⟨editedAt.actor, fromPair.1, toIdx, none⟩ :: more
      else
        return more

/-- Change-entry computation over the deletion boundaries
(`RGATreeSplit.makeChanges`, including the final `changes.reverse()`). -/
def RGATreeSplit.makeChanges (s : RGATreeSplit)
    (boundaries : List (Option RGATreeSplitNode)) (editedAt : TimeTicket) :
    Option (List ValueChange) :=
  (makeChangesAsc s editedAt boundaries).map List.reverse

/-- Deletion phase of an edit (`RGATreeSplit.deleteNodes`): filter the
candidates, compute the change entries before tombstoning, then tombstone the
deletable nodes with `removedAt = editedAt`; returns the change entries and
the ids of the tombstoned nodes (the source's `removedNodes` map). -/
def RGATreeSplit.deleteNodes (s : RGATreeSplit)
    (candidates : List RGATreeSplitNode) (editedAt : TimeTicket)
    (versionVector : Option VersionVector) :
    Option (RGATreeSplit × List ValueChange × List RGATreeSplitNodeID) :=
  if candidates.isEmpty then some (s, [], [])
  else do
    let (nodesToDelete, nodesToKeep) ←
      s.filterNodes candidates editedAt versionVector
    let changes ← s.makeChanges nodesToKeep editedAt
    let removedIds := nodesToDelete.map (·.id)
    let tombstoned : RGATreeSplit :=
      ⟨s.nodes.map (fun n =>
        if n.id ∈ removedIds then { n with removedAt := some editedAt } else n)⟩
    return (tombstoned, changes, removedIds)

/-- Result of `RGATreeSplit.edit`: new state, caret position, garbage pairs
(as the ids of the tombstoned children) and change entries. -/
structure EditResult where
  state : RGATreeSplit
  caretPos : RGATreeSplitPos
  gcPairIds : List RGATreeSplitNodeID
  changes : List ValueChange
deriving DecidableEq, Repr

/-- The candidate-collection step of `RGATreeSplit.edit`: the nodes between
the `from` boundary and the `to` boundary (empty when the `from` split sits at
the very end of the list). -/
def editCandidates (s2 : RGATreeSplit)
    (fromRight toRight : Option RGATreeSplitNode) :
    Option (List RGATreeSplitNode) :=
  match fromRight with
  | none => some []
  | some fr => s2.findBetween fr.id (toRight.map (·.id))

/-- Text edit (`RGATreeSplit.edit`), following the source's contractual step
order: split at `to` then at `from`, collect and delete the candidates in
between, then insert the new value (merging it into the last change entry
when that entry starts at the insertion index). -/
def RGATreeSplit.edit (s : RGATreeSplit)
    (range : RGATreeSplitPos × RGATreeSplitPos) (editedAt : TimeTicket)
    (value : Option CRDTTextValue) (versionVector : Option VersionVector) :
    Option EditResult := do
  let (s1, toLeft, toRight) ← s.findNodeWithSplit range.2 editedAt
  let (s2, fromLeft, fromRight) ← s1.findNodeWithSplit range.1 editedAt
  let candidates ← editCandidates s2 fromRight toRight
  let (s3, changes0, removedIds) ← s2.deleteNodes candidates editedAt versionVector
  let caretID := match toRight with
    | some tr => tr.id
    | none => toLeft.id
  match value with
  | none => some ⟨s3, ⟨caretID, 0⟩, removedIds, changes0⟩
  | some v => do
    let fl ← findById s3.nodes fromLeft.id
    let idx ← s3.posToIndex fl.createPosRange.2 true
    let inserted : RGATreeSplitNode := ⟨⟨editedAt, 0⟩, some v, none, none⟩
    let nodes4 ← insertAfterL s3.nodes fromLeft.id inserted
    let changes1 := (match changes0.getLast? with
      | some c =>
        if c.fromIdx = idx then changes0.dropLast ++ [{ c with value := some v }]
        else changes0 ++ [⟨editedAt.actor, idx, idx, some v⟩]
      | none => changes0 ++ [⟨editedAt.actor, idx, idx, some v⟩])
    some ⟨⟨nodes4⟩, ⟨inserted.id, inserted.getContentLength⟩, removedIds, changes1⟩

/-- `RHT.set` (the RHT itself is not among the provided sources; modelled
from the spec §4.2): insert when the key is new, replace iff the ticket is
after the existing entry's ticket, and return the replaced entry for garbage
collection. -/
def rhtSet (attrs : List RHTEntry) (key value : String) (ticket : TimeTicket) :
    Option RHTEntry × List RHTEntry :=
  match attrs.find? (fun e => decide (e.key = key)) with
  | none => (none, attrs ++ [⟨key, value, ticket⟩])
  | some e =>
    if ticket.after e.updatedAt then
      (some e, attrs.map (fun x => if x.key = key then ⟨key, value, ticket⟩ else x))
    else (none, attrs)

/-- All attribute entries applied in order to one value's RHT (the
`Object.entries(attributes)` loop of `CRDTText.setStyle`), collecting the
replaced entries in order. -/
def applyAttrs (v : CRDTTextValue) (kvs : List (String × String))
    (ticket : TimeTicket) : CRDTTextValue × List RHTEntry :=
  match kvs with
  | [] => (v, [])
  | kv :: rest =>
    let r := rhtSet v.attributes kv.1 kv.2 ticket
    let acc := applyAttrs ⟨v.content, r.2⟩ rest ticket
    (acc.1, (match r.1 with | some p => [p] | none => []) ++ acc.2)

/-- Apply every attribute entry to the RHT of the node with the given id
(the per-node body of the `toBeStyleds` loop); the replaced entries of that
node are returned alongside the new state. -/
def setAttrsOfNode (s : RGATreeSplit) (nid : RGATreeSplitNodeID)
    (kvs : List (String × String)) (ticket : TimeTicket) :
    RGATreeSplit × List RHTEntry :=
  let prevs := match findById s.nodes nid with
    | none => []
    | some n =>
      match n.value with
      | none => []
      | some v => (applyAttrs v kvs ticket).2
  (⟨s.nodes.map (fun m => if m.id = nid then
      { m with
        value := m.value.map (fun w =>
          ⟨w.content, (applyAttrs w kvs ticket).1.attributes⟩) }
    else m)⟩, prevs)

/-- One entry of the change list `setStyle` reports (a `TextChange` of type
`Style`; the attribute payload is the same for every entry and is omitted). -/
structure StyleChange where
  actor : Nat
  fromIdx : Nat
  toIdx : Nat
deriving DecidableEq, Repr

/-- The styling loop of `CRDTText.setStyle` over the filtered candidates:
tombstoned nodes are skipped entirely; for each remaining node one style
change entry with its current index range is recorded and every attribute is
applied to its RHT, the replaced entries becoming GC pairs keyed by the node
id. -/
def styleNodes (editedAt : TimeTicket) (kvs : List (String × String)) :
    RGATreeSplit → List RGATreeSplitNode →
    Option (RGATreeSplit × List (RGATreeSplitNodeID × RHTEntry) ×
      List StyleChange)
  | s, [] => some (s, [], [])
  | s, n :: rest =>
    if n.isRemoved then styleNodes editedAt kvs s rest
    else do
      let (fromIdx, toIdx) ← s.findIndexesFromRange n.createPosRange
      let sp := setAttrsOfNode s n.id kvs editedAt
      let (s2, pairs, chs) ← styleNodes editedAt kvs sp.1 rest
      some (s2, sp.2.map (fun p => (n.id, p)) ++ pairs,
        (⟨editedAt.actor, fromIdx, toIdx⟩ : StyleChange) :: chs)

/-- The text element (`CRDTText`): a split list plus the element's own
creation and removal tickets. -/
structure CRDTText where
  rgaTreeSplit : RGATreeSplit
  createdAt : TimeTicket
  removedAt : Option TimeTicket
deriving DecidableEq, Repr

/-- `CRDTText.setStyle`: split at `to` then at `from`, walk the nodes in
between, keep those the `canStyle` filter admits, then run the styling loop
over them. -/
def CRDTText.setStyle (t : CRDTText)
    (range : RGATreeSplitPos × RGATreeSplitPos)
    (attributes : List (String × String)) (editedAt : TimeTicket)
    (versionVector : Option VersionVector) :
    Option (CRDTText × List (RGATreeSplitNodeID × RHTEntry) ×
      List StyleChange) := do
  let (s1, _, toRight) ← t.rgaTreeSplit.findNodeWithSplit range.2 editedAt
  let (s2, _, fromRight) ← s1.findNodeWithSplit range.1 editedAt
  let nodes ← editCandidates s2 fromRight toRight
  let toBeStyleds := nodes.filter (fun n =>
    n.canStyle editedAt (clientLamportAt versionVector n.id.createdAt.actor))
  let (s3, pairs, changes) ← styleNodes editedAt attributes s2 toBeStyleds
  some (⟨s3, t.createdAt, t.removedAt⟩, pairs, changes)

/-- Deep copy (`RGATreeSplit.deepcopy`): starting from a fresh head, append a
shallow copy (`RGATreeSplitNode.deepcopy`, no structural info) of each
non-head node in document order, resolving each `insPrev` link through
`clone.findNode` — a floor lookup in the clone built so far. -/
def deepcopyStep (acc : List RGATreeSplitNode) (n : RGATreeSplitNode) :
    List RGATreeSplitNode :=
  let copy := n.deepcopyNode
  let copy2 := match n.insPrev with
    | none => copy
    | some pid =>
      match findFloorNode acc pid with
      | none => copy
      | some m => { copy with insPrev := some m.id }
  acc ++ [copy2]

def RGATreeSplit.deepcopy (s : RGATreeSplit) : RGATreeSplit :=
  ⟨s.nodes.tail.foldl deepcopyStep [headNode]⟩

/-- `VersionVector.set` (modelled from the spec §3): update or add the
actor's entry. -/
def VersionVector.set (vv : VersionVector) (actor lamport : Nat) :
    VersionVector :=
  if (vv.entries.find? (fun e => decide (e.1 = actor))).isSome then
    ⟨vv.entries.map (fun e => if e.1 = actor then (actor, lamport) else e)⟩
  else ⟨vv.entries ++ [(actor, lamport)]⟩

/-- `ChangeID` (not among the provided sources; modelled from the spec §3):
client sequence, server sequence, lamport, actor and version vector. -/
structure ChangeID where
  clientSeq : Nat
  serverSeq : Nat
  lamport : Nat
  actor : Nat
  versionVector : VersionVector
deriving DecidableEq, Repr

/-- `ChangeID.next` (modelled from the spec §3): the client sequence always
advances; with `excludeClocks` (presence-only change) the clocks are
preserved as-is, otherwise the lamport and the vector's own entry are both
incremented. -/
def ChangeID.next (id : ChangeID) (excludeClocks : Bool) : ChangeID :=
  if excludeClocks then { id with clientSeq := id.clientSeq + 1 }
  else
    { id with
      clientSeq := id.clientSeq + 1,
      lamport := id.lamport + 1,
      versionVector := id.versionVector.set id.actor (id.lamport + 1) }

/-- One operation of a change.  Only the style operation is modelled in
detail; every other operation kind is an opaque token. -/
inductive OperationM where
  | style (parentCreatedAt : TimeTicket) (fromPos toPos : RGATreeSplitPos)
      (attributes : List (String × String)) (executedAt : TimeTicket)
  | otherOp (tag : Nat)
deriving DecidableEq, Repr

/-- A produced change (`Change`): id, operations and the optional presence
change (its payload an opaque token). -/
structure ChangeM where
  id : ChangeID
  operations : List OperationM
  presenceChange : Option Nat
deriving DecidableEq, Repr

/-- The id-issuing part of a `ChangeContext`: the previous id, the `nextID`
computed in the constructor, the growing operation list and the optional
presence change.  The root and presence the real context also carries play
no role in the id logic. -/
structure ChangeContextM where
  prevID : ChangeID
  nextID : ChangeID
  operations : List OperationM
  presenceChange : Option Nat
deriving DecidableEq, Repr

/-- `ChangeContext.create`: `nextID = prevID.next()`, empty operation list,
no presence change yet. -/
def ChangeContextM.create (prevID : ChangeID) : ChangeContextM :=
  ⟨prevID, prevID.next false, [], none⟩

/-- `isPresenceOnlyChange`: the operation list is empty. -/
def ChangeContextM.isPresenceOnlyChange (ctx : ChangeContextM) : Bool :=
  decide (ctx.operations.length = 0)

/-- `hasChange`: some operation or a presence change. -/
def ChangeContextM.hasChange (ctx : ChangeContextM) : Bool :=
  decide (0 < ctx.operations.length) || ctx.presenceChange.isSome

/-- `toChange`: the change id is `prevID.next(true)` for a presence-only
context and the constructor's `nextID` otherwise. -/
def ChangeContextM.toChange (ctx : ChangeContextM) : ChangeM :=
  ⟨if ctx.isPresenceOnlyChange then ctx.prevID.next true else ctx.nextID,
    ctx.operations, ctx.presenceChange⟩

/-- `getNextID`: for a presence-only context, `prevID.next(true)` with the
previous id's lamport and version vector restored; otherwise `nextID`. -/
def ChangeContextM.getNextID (ctx : ChangeContextM) : ChangeID :=
  if ctx.isPresenceOnlyChange then
    { ctx.prevID.next true with
      lamport := ctx.prevID.lamport,
      versionVector := ctx.prevID.versionVector }
  else ctx.nextID

/-- An element of the root's element map, as far as the modelled operations
care: a text, or an element of any other kind. -/
inductive ElementM where
  | text (t : CRDTText)
  | otherElem (createdAt : TimeTicket)
deriving DecidableEq, Repr

/-- The root (`CRDTRoot`): the creation-ticket-keyed element map and the
total live+gc document size in bytes (the byte accounting itself is not
re-derived; the size is carried as a number). -/
structure CRDTRootM where
  elements : List (TimeTicket × ElementM)
  docSize : Nat
deriving DecidableEq, Repr

/-- `CRDTRoot.findByCreatedAt`. -/
def CRDTRootM.findByCreatedAt (root : CRDTRootM) (t : TimeTicket) :
    Option ElementM :=
  (root.elements.find? (fun e => decide (e.1 = t))).map (fun e => e.2)

/-- Replace the text element stored under the given creation ticket. -/
def CRDTRootM.setText (root : CRDTRootM) (t : TimeTicket) (txt : CRDTText) :
    CRDTRootM :=
  ⟨root.elements.map (fun e => if e.1 = t then (e.1, ElementM.text txt) else e),
    root.docSize⟩

/-- The errors the modelled entry points raise (`YorkieError` codes; the two
`ErrInvalidArgument` lookup messages of `StyleOperation.execute` and the
`ErrInvalidArgument` a failed position lookup inside the text raises are kept
distinct). -/
inductive ErrM where
  | documentRemoved
  | mutatorThrew
  | schemaValidationFailed
  | sizeExceedsLimit
  | refused
  | invalidArgumentFailToFind
  | invalidArgumentOnlyText
  | invalidArgumentNodeNotFound
deriving DecidableEq, Repr

/-- `StyleOperation.execute`: look up the parent by `parentCreatedAt` —
`ErrInvalidArgument` "fail to find" when the element map has no such entry,
`ErrInvalidArgument` "only Text can execute edit" when the entry is not a
text — then run `CRDTText.setStyle`, store the updated text and report the
GC pairs and style changes. -/
def StyleOperationM.execute (parentCreatedAt : TimeTicket)
    (fromPos toPos : RGATreeSplitPos)
    (attributes : List (String × String)) (executedAt : TimeTicket)
    (root : CRDTRootM) (versionVector : Option VersionVector) :
    Except ErrM (CRDTRootM × List (RGATreeSplitNodeID × RHTEntry) ×
      List StyleChange) :=
  match root.findByCreatedAt parentCreatedAt with
  | none => Except.error ErrM.invalidArgumentFailToFind
  | some (ElementM.otherElem _) => Except.error ErrM.invalidArgumentOnlyText
  | some (ElementM.text t) =>
    match t.setStyle (fromPos, toPos) attributes executedAt versionVector with
    | none => Except.error ErrM.invalidArgumentNodeNotFound
    | some (t', pairs, chs) =>
      Except.ok (root.setText parentCreatedAt t', pairs, chs)

/-- Document status. -/
inductive DocStatusM where
  | detached
  | attached
  | removed
deriving DecidableEq, Repr

/-- Presences, opaque to the modelled claims: actor to presence token. -/
abbrev PresencesM := List (Nat × Nat)

/-- One entry of a reverse-operation list, opaque to the modelled claims. -/
abbrev HistoryOpM := Nat

/-- The document state the modelled entry points read and write: status,
authoritative root and presences, speculative clone, change id, pending local
changes, the two history stacks (top at the head), the re-entrancy flag and
the configured limits. -/
structure DocStateM where
  status : DocStatusM
  root : CRDTRootM
  presences : PresencesM
  clone : Option (CRDTRootM × PresencesM)
  changeID : ChangeID
  localChanges : List ChangeM
  undoStack : List (List HistoryOpM)
  redoStack : List (List HistoryOpM)
  isUpdating : Bool
  maxSizeLimit : Nat
  schemaRulesCount : Nat
deriving DecidableEq, Repr

/-- `Document.update`.  The mutator (the user updater run against the proxy
over the clone; `none` models a thrown exception), the schema ruleset
validation and the change execution against the authoritative root are taken
as function parameters — their internals live outside the provided sources.
Pipeline as in the source: reject when removed; ensure the clone (a deep copy
is the value itself in this value-semantic embedding); run the mutator with
`isUpdating` set (cleared in the `finally`), discarding the clone and
re-raising on failure; validate the schema unless the change is
presence-only and fail discarding the clone; check the size limit unless the
change is presence-only and fail discarding the clone; finally, when the
context has a change, build it, execute it against the authoritative root,
append it to the local changes, push the reverse operations onto the undo
stack when non-empty, clear the redo stack when operations actually ran, and
advance the change id via `getNextID`. -/
def Document.update (d : DocStateM)
    (mutator : CRDTRootM → PresencesM →
      Option (CRDTRootM × PresencesM × List OperationM × Option Nat))
    (validate : CRDTRootM → Bool)
    (execChange : ChangeM → CRDTRootM → PresencesM →
      CRDTRootM × PresencesM × Nat × List HistoryOpM) :
    DocStateM × Option ErrM :=
  if d.status = DocStatusM.removed then (d, some ErrM.documentRemoved)
  else
    let clone0 := d.clone.getD (d.root, d.presences)
    let d0 := { d with clone := some clone0 }
    match mutator clone0.1 clone0.2 with
    | none => ({ d0 with clone := none, isUpdating := false },
        some ErrM.mutatorThrew)
    | some (croot, cpres, ops, pch) =>
      let d1 := { d0 with clone := some (croot, cpres), isUpdating := false }
      let ctx : ChangeContextM :=
        { ChangeContextM.create d.changeID with
          operations := ops, presenceChange := pch }
      if ¬ ctx.isPresenceOnlyChange ∧ 0 < d.schemaRulesCount ∧
          validate croot = false then
        ({ d1 with clone := none }, some ErrM.schemaValidationFailed)
      else if ¬ ctx.isPresenceOnlyChange ∧ 0 < d.maxSizeLimit ∧
          d.maxSizeLimit < croot.docSize then
        ({ d1 with clone := none }, some ErrM.sizeExceedsLimit)
      else if ctx.hasChange then
        let change := ctx.toChange
        let r := execChange change d.root d.presences
        ({ d1 with
          root := r.1,
          presences := r.2.1,
          localChanges := d.localChanges ++ [change],
          undoStack := if r.2.2.2 ≠ [] then r.2.2.2 :: d.undoStack
            else d.undoStack,
          redoStack := if 0 < r.2.2.1 then [] else d.redoStack,
          changeID := ctx.getNextID }, none)
      else (d1, none)

/-- `Document.undo` up to its guards: `ErrRefused` while `isUpdating` and
`ErrRefused` when the undo stack is empty (the source's `popUndo` leaves the
empty history untouched); otherwise the popped reverse operations are handed
to the body — the context build, clone-and-root execution and redo push —
which is taken as a function parameter. -/
def Document.undo (d : DocStateM)
    (body : DocStateM → List HistoryOpM → DocStateM × Option ErrM) :
    DocStateM × Option ErrM :=
  if d.isUpdating then (d, some ErrM.refused)
  else
    match d.undoStack with
    | [] => (d, some ErrM.refused)
    | ops :: rest => body { d with undoStack := rest } ops

/-- `Document.redo`, the mirror image of `Document.undo`. -/
def Document.redo (d : DocStateM)
    (body : DocStateM → List HistoryOpM → DocStateM × Option ErrM) :
    DocStateM × Option ErrM :=
  if d.isUpdating then (d, some ErrM.refused)
  else
    match d.redoStack with
    | [] => (d, some ErrM.refused)
    | ops :: rest => body { d with redoStack := rest } ops

/-- Split-list states reachable from the fresh text by any sequence of edits
and style applications, local (`versionVector = none`) or remote.  An edit
carries a ticket the current state has never seen (tickets are issued by
lamport clocks, so an applied change's ticket is fresh) and tickets are
strictly above the initial sentinel. -/
inductive ReachableSplit : RGATreeSplit → Prop where
  | init : ReachableSplit RGATreeSplit.create
  | edit_step {s : RGATreeSplit} {range : RGATreeSplitPos × RGATreeSplitPos}
      {editedAt : TimeTicket} {value : Option CRDTTextValue}
      {vv : Option VersionVector} {r : EditResult} :
      ReachableSplit s →
      (∀ n ∈ s.nodes, n.id.createdAt ≠ editedAt) →
      TimeTicket.ltP InitialTimeTicket editedAt →
      s.edit range editedAt value vv = some r →
      ReachableSplit r.state
  | style_step {s : RGATreeSplit} {createdAt : TimeTicket}
      {removedAt : Option TimeTicket}
      {range : RGATreeSplitPos × RGATreeSplitPos}
      {attributes : List (String × String)} {editedAt : TimeTicket}
      {vv : Option VersionVector}
      {out : CRDTText × List (RGATreeSplitNodeID × RHTEntry) ×
        List StyleChange} :
      ReachableSplit s →
      CRDTText.setStyle ⟨s, createdAt, removedAt⟩ range attributes editedAt vv =
        some out →
      ReachableSplit out.1.rgaTreeSplit

/-- Non-strict id order, as the comparator's not-greater. -/
def RGATreeSplitNodeID.leP (a b : RGATreeSplitNodeID) : Prop :=
  ¬ RGATreeSplitNodeID.ltP b a

theorem ttlt_asymm {a b : TimeTicket} (h : TimeTicket.ltP a b) :
    ¬ TimeTicket.ltP b a :=
  fun h2 => ttlt_irrefl a (ttlt_trans h h2)

theorem idlt_asymm {a b : RGATreeSplitNodeID} (h : RGATreeSplitNodeID.ltP a b) :
    ¬ RGATreeSplitNodeID.ltP b a :=
  fun h2 => idlt_irrefl a (idlt_trans h h2)

theorem idle_refl (a : RGATreeSplitNodeID) : RGATreeSplitNodeID.leP a a :=
  idlt_irrefl a

theorem idle_of_lt {a b : RGATreeSplitNodeID} (h : RGATreeSplitNodeID.ltP a b) :
    RGATreeSplitNodeID.leP a b :=
  idlt_asymm h

theorem idle_trans {a b c : RGATreeSplitNodeID} (h1 : RGATreeSplitNodeID.leP a b)
    (h2 : RGATreeSplitNodeID.leP b c) : RGATreeSplitNodeID.leP a c := by
  intro hca
  rcases idlt_total a b with h | h | h
  · exact h2 (idlt_trans hca h)
  · subst h
    exact h2 hca
  · exact h1 h

theorem idle_antisymm {a b : RGATreeSplitNodeID} (h1 : RGATreeSplitNodeID.leP a b)
    (h2 : RGATreeSplitNodeID.leP b a) : a = b := by
  rcases idlt_total a b with h | h | h
  · exact absurd h h2
  · exact h
  · exact absurd h h1

theorem idle_elim {a b : RGATreeSplitNodeID} (h : RGATreeSplitNodeID.leP a b) :
    TimeTicket.ltP a.createdAt b.createdAt ∨
      (a.createdAt = b.createdAt ∧ a.offset ≤ b.offset) := by
  rcases idlt_total a b with hlt | heq | hgt
  · rcases hlt with hlt | ⟨he, ho⟩
    · exact Or.inl hlt
    · exact Or.inr ⟨he, Nat.le_of_lt ho⟩
  · subst heq
    exact Or.inr ⟨rfl, Nat.le_refl _⟩
  · exact absurd hgt h

theorem idle_intro {a b : RGATreeSplitNodeID}
    (h : TimeTicket.ltP a.createdAt b.createdAt ∨
      (a.createdAt = b.createdAt ∧ a.offset ≤ b.offset)) :
    RGATreeSplitNodeID.leP a b := by
  intro hba
  rcases hba with hba | ⟨he2, ho2⟩
  · rcases h with h | ⟨he, _⟩
    · exact ttlt_asymm h hba
    · rw [he] at hba
      exact ttlt_irrefl _ hba
  · rcases h with h | ⟨he, ho⟩
    · rw [he2] at h
      exact ttlt_irrefl _ h
    · omega

theorem id_compare_ne_gt_iff (a b : RGATreeSplitNodeID) :
    RGATreeSplitNodeID.compare a b ≠ Ordering.gt ↔ RGATreeSplitNodeID.leP a b :=
  not_congr (id_compare_gt_iff a b)

theorem nodup_id_eq {l : List RGATreeSplitNode}
    (h : l.Pairwise (fun a b => a.id ≠ b.id)) {m n : RGATreeSplitNode}
    (hm : m ∈ l) (hn : n ∈ l) (heq : m.id = n.id) : m = n := by
  induction l with
  | nil => cases hm
  | cons a t ih =>
    rcases List.pairwise_cons.mp h with ⟨ha, ht⟩
    rcases List.mem_cons.mp hm with h1 | h1
    · rcases List.mem_cons.mp hn with h2 | h2
      · rw [h1, h2]
      · subst h1
        exact absurd heq (ha n h2)
    · rcases List.mem_cons.mp hn with h2 | h2
      · subst h2
        exact absurd heq.symm (ha m h1)
      · exact ih ht h1 h2

theorem splayFind_zero (n : RGATreeSplitNode) (rest : List RGATreeSplitNode) :
    splayFind (n :: rest) 0 = some (n, 0) := by
  simp [splayFind]

theorem splayFind_pos {nodes : List RGATreeSplitNode} {i : Nat}
    {n : RGATreeSplitNode} {off : Nat} (hi : 1 ≤ i)
    (h : splayFind nodes i = some (n, off)) :
    ∃ pre post, nodes = pre ++ n :: post ∧ i = visibleLength pre + off ∧
      1 ≤ off ∧ off ≤ n.getLength := by
  induction nodes generalizing i with
  | nil => simp [splayFind] at h
  | cons m rest ih =>
    rw [splayFind] at h
    by_cases hc : i ≤ m.getLength
    · rw [if_pos hc] at h
      injection h with h
      injection h with h1 h2
      subst h1
      subst h2
      exact ⟨[], rest, rfl, by simp [visibleLength], hi, hc⟩
    · rw [if_neg hc] at h
      have hlt : m.getLength < i := Nat.lt_of_not_le hc
      have hi' : 1 ≤ i - m.getLength := by omega
      rcases ih hi' h with ⟨pre, post, hsplit, hsum, ho1, ho2⟩
      refine ⟨m :: pre, post, by simp [hsplit], ?_, ho1, ho2⟩
      simp only [visibleLength, List.map_cons, List.sum_cons] at hsum ⊢
      omega

theorem splayFind_total {nodes : List RGATreeSplitNode} {i : Nat}
    (hne : nodes ≠ []) (hi : i ≤ visibleLength nodes) :
    (splayFind nodes i).isSome := by
  induction nodes generalizing i with
  | nil => exact absurd rfl hne
  | cons m rest ih =>
    rw [splayFind]
    by_cases hc : i ≤ m.getLength
    · rw [if_pos hc]
      rfl
    · rw [if_neg hc]
      have hrest : rest ≠ [] := by
        intro hr
        subst hr
        simp [visibleLength] at hi
        omega
      apply ih hrest
      simp only [visibleLength, List.map_cons, List.sum_cons] at hi
      unfold visibleLength
      omega

theorem indexOfId_spec {pre post : List RGATreeSplitNode}
    {n : RGATreeSplitNode}
    (h : (pre ++ n :: post).Pairwise (fun a b => a.id ≠ b.id)) :
    indexOfId (pre ++ n :: post) n.id = some (visibleLength pre) := by
  induction pre with
  | nil => simp [indexOfId, visibleLength]
  | cons a pre' ih =>
    rw [List.cons_append] at h
    rcases List.pairwise_cons.mp h with ⟨ha, ht⟩
    have hne : a.id ≠ n.id := ha n (by simp)
    have hrec := ih ht
    rw [List.cons_append, indexOfId, if_neg hne, hrec]
    simp [visibleLength]

theorem floorEntry_isSome {nodes : List RGATreeSplitNode}
    {id : RGATreeSplitNodeID} {x : RGATreeSplitNode} (hx : x ∈ nodes)
    (hle : RGATreeSplitNodeID.leP x.id id) : (floorEntry nodes id).isSome := by
  induction nodes with
  | nil => cases hx
  | cons a rest ih =>
    rw [floorEntry]
    rcases h2 : floorEntry rest id with _ | b
    · rcases List.mem_cons.mp hx with h1 | h1
      · subst h1
        rw [floorStep, if_pos ((id_compare_ne_gt_iff _ _).mpr hle)]
        rfl
      · have := ih h1
        rw [h2] at this
        simp at this
    · rw [floorStep]
      split
      · rfl
      · rfl

theorem floorEntry_spec {nodes : List RGATreeSplitNode}
    {id : RGATreeSplitNodeID} :
    ∀ {m : RGATreeSplitNode}, floorEntry nodes id = some m →
    m ∈ nodes ∧ RGATreeSplitNodeID.leP m.id id ∧
      ∀ x ∈ nodes, RGATreeSplitNodeID.leP x.id id →
        RGATreeSplitNodeID.leP x.id m.id := by
  induction nodes with
  | nil =>
    intro m h
    simp [floorEntry] at h
  | cons a rest ih =>
    intro m h
    rw [floorEntry] at h
    rcases hrec : floorEntry rest id with _ | b
    · rw [hrec, floorStep] at h
      by_cases hc : RGATreeSplitNodeID.compare a.id id ≠ Ordering.gt
      · rw [if_pos hc] at h
        injection h with h
        subst h
        have hle := (id_compare_ne_gt_iff _ _).mp hc
        refine ⟨by simp, hle, ?_⟩
        intro x hx hxle
        rcases List.mem_cons.mp hx with h1 | h1
        · subst h1
          exact idle_refl _
        · exfalso
          have := floorEntry_isSome h1 hxle
          rw [hrec] at this
          simp at this
      · rw [if_neg hc] at h
        cases h
    · rw [hrec, floorStep] at h
      rcases ih hrec with ⟨hbmem, hble, hbmax⟩
      by_cases hc : RGATreeSplitNodeID.compare a.id id ≠ Ordering.gt ∧
          RGATreeSplitNodeID.compare b.id a.id = Ordering.lt
      · rw [if_pos hc] at h
        injection h with h
        subst h
        have hle := (id_compare_ne_gt_iff _ _).mp hc.1
        have hblt := (id_compare_lt_iff _ _).mp hc.2
        refine ⟨by simp, hle, ?_⟩
        intro x hx hxle
        rcases List.mem_cons.mp hx with h1 | h1
        · subst h1
          exact idle_refl _
        · exact idle_trans (hbmax x h1 hxle) (idle_of_lt hblt)
      · rw [if_neg hc] at h
        injection h with h
        subst h
        refine ⟨by simp [hbmem], hble, ?_⟩
        intro x hx hxle
        rcases List.mem_cons.mp hx with h1 | h1
        · subst h1
          rcases Decidable.not_and_iff_or_not.mp hc with hc | hc
          · exact absurd ((id_compare_ne_gt_iff _ _).mpr hxle) hc
          · rw [id_compare_lt_iff] at hc
            intro hlt
            rcases idlt_total b.id x.id with h2 | h2 | h2
            · exact hc h2
            · rw [h2] at hlt
              exact idlt_irrefl _ hlt
            · exact idlt_irrefl _ (idlt_trans hlt h2)
        · exact hbmax x h1 hxle

theorem findById_spec {nodes : List RGATreeSplitNode}
    {id : RGATreeSplitNodeID} {w : RGATreeSplitNode}
    (h : findById nodes id = some w) : w ∈ nodes ∧ w.id = id := by
  unfold findById at h
  refine ⟨List.mem_of_find?_eq_some h, ?_⟩
  have := List.find?_some h
  exact of_decide_eq_true this

theorem findById_isSome {nodes : List RGATreeSplitNode}
    {x : RGATreeSplitNode} (hx : x ∈ nodes) :
    (findById nodes x.id).isSome := by
  unfold findById
  rw [List.find?_isSome]
  exact ⟨x, hx, by simp⟩

/-- Well-formedness invariant of a split list, maintained by every state the
program can reach without garbage collection: the head sentinel sits first;
non-head nodes carry tickets above the initial one; ids are unique; nodes
sharing a creation ticket cover disjoint content ranges; an `insPrev` link
points at the same-ticket node whose content ends exactly where this node's
offset starts; and every node with a non-zero offset (a split right half)
has an `insPrev` link. -/
structure WF (s : RGATreeSplit) : Prop where
  head_first : s.nodes.head? = some headNode
  init_min : ∀ n ∈ s.nodes.tail, TimeTicket.ltP InitialTimeTicket n.id.createdAt
  ids_nodup : s.nodes.Pairwise (fun a b => a.id ≠ b.id)
  disjoint : ∀ n ∈ s.nodes, ∀ m ∈ s.nodes,
      n.id.createdAt = m.id.createdAt → n.id ≠ m.id →
      n.id.offset + n.getContentLength ≤ m.id.offset ∨
      m.id.offset + m.getContentLength ≤ n.id.offset
  insPrev_sound : ∀ n ∈ s.nodes, ∀ pid, n.insPrev = some pid →
      ∃ m ∈ s.nodes, m.id = pid ∧ pid.createdAt = n.id.createdAt ∧
        0 < m.getContentLength ∧ pid.offset + m.getContentLength = n.id.offset
  insPrev_total : ∀ n ∈ s.nodes, n.id.offset ≠ 0 → n.insPrev.isSome

theorem getLength_pos_elim {n : RGATreeSplitNode} (h : 0 < n.getLength) :
    n.removedAt = none ∧ n.getLength = n.getContentLength := by
  unfold RGATreeSplitNode.getLength at *
  rcases hr : n.removedAt with _ | r
  · simp [hr] at h ⊢
  · rw [hr] at h
    simp at h

theorem wf_head_cons {s : RGATreeSplit} (hwf : WF s) :
    ∃ t, s.nodes = headNode :: t := by
  have h := hwf.head_first
  refine ⟨s.nodes.tail, ?_⟩
  rcases s with ⟨nodes⟩
  rcases nodes with _ | ⟨b, t⟩
  · cases h
  · simp only [List.head?_cons, Option.some.injEq] at h
    rw [h]
    rfl

theorem id_ext {a b : RGATreeSplitNodeID} (h1 : a.createdAt = b.createdAt)
    (h2 : a.offset = b.offset) : a = b := by
  rcases a with ⟨ac, ao⟩
  rcases b with ⟨bc, bo⟩
  simp_all

theorem squeeze_createdAt {m n : RGATreeSplitNode} {off : Nat}
    (h1 : RGATreeSplitNodeID.leP n.id m.id)
    (h2 : RGATreeSplitNodeID.leP m.id ⟨n.id.createdAt, n.id.offset + off⟩) :
    m.id.createdAt = n.id.createdAt ∧ n.id.offset ≤ m.id.offset ∧
      m.id.offset ≤ n.id.offset + off := by
  rcases idle_elim h1 with hc1 | ⟨hc1, ho1⟩
  · rcases idle_elim h2 with hc2 | ⟨hc2, _⟩
    · exact absurd hc2 (ttlt_asymm hc1)
    · rw [hc2] at hc1
      exact absurd hc1 (ttlt_irrefl _)
  · rcases idle_elim h2 with hc2 | ⟨hc2, ho2⟩
    · rw [hc1] at hc2
      exact absurd hc2 (ttlt_irrefl _)
    · exact ⟨hc2, ho1, ho2⟩

/-- Resolution of the floor-preferring-left lookup at an in-node position:
under the invariant, the absolute id `⟨n.createdAt, n.offset + off⟩` with
`1 ≤ off ≤ contentLength n` resolves to `n` itself. -/
theorem preferLeft_resolves {s : RGATreeSplit} (hwf : WF s)
    {n : RGATreeSplitNode} (hmem : n ∈ s.nodes) (_hnr : n.removedAt = none)
    {off : Nat} (hoff1 : 1 ≤ off) (hoff2 : off ≤ n.getContentLength) :
    findFloorNodePreferToLeft s.nodes ⟨n.id.createdAt, n.id.offset + off⟩ =
      some n := by
  set absID : RGATreeSplitNodeID := ⟨n.id.createdAt, n.id.offset + off⟩ with habs
  have hleabs : RGATreeSplitNodeID.leP n.id absID := by
    apply idle_intro
    right
    constructor
    · rfl
    · simp [habs]
  have hsome := floorEntry_isSome hmem hleabs
  rcases hfl : floorEntry s.nodes absID with _ | m
  · rw [hfl] at hsome
    simp at hsome
  rcases floorEntry_spec hfl with ⟨hm_mem, hm_le, hm_max⟩
  have hn_le_m := hm_max n hmem hleabs
  have hsq := squeeze_createdAt hn_le_m hm_le
  rcases hsq with ⟨hcat, hge, hle⟩
  by_cases hid : m.id = n.id
  · have hm_eq : m = n := nodup_id_eq hwf.ids_nodup hm_mem hmem hid
    have hcond : m.id = absID ∨ m.id.hasSameCreatedAt absID = true := by
      right
      rw [id_hasSameCreatedAt_iff]
      exact hcat
    simp only [findFloorNodePreferToLeft, findFloorNode, hfl, if_pos hcond]
    have hneg : ¬ (0 < absID.offset ∧ m.id.offset = absID.offset) := by
      intro hp
      have hx := hp.2
      rw [hid, habs] at hx
      simp at hx
      omega
    rw [if_neg hneg, hm_eq]
  · have hdisj := hwf.disjoint n hmem m hm_mem hcat.symm (fun he => hid he.symm)
    have hmoff : m.id.offset = n.id.offset + n.getContentLength ∧
        off = n.getContentLength := by
      rcases hdisj with hd | hd
      · omega
      · exfalso
        have hoeq : m.id.offset = n.id.offset := by omega
        exact hid (id_ext hcat hoeq)
    have hm_exact : m.id = absID := by
      apply id_ext
      · rw [habs]
        exact hcat
      · rw [habs]
        simp
        omega
    simp only [findFloorNodePreferToLeft, findFloorNode, hfl,
      if_pos (Or.inl hm_exact)]
    have hcond : 0 < absID.offset ∧ m.id.offset = absID.offset := by
      refine ⟨?_, by rw [hm_exact]⟩
      rw [habs]
      simp
      omega
    rw [if_pos hcond]
    have hips := hwf.insPrev_total m hm_mem
      (by rw [hm_exact, habs]; simp; omega)
    rcases hip : m.insPrev with _ | pid
    · rw [hip] at hips
      simp at hips
    rcases hwf.insPrev_sound m hm_mem pid hip with
      ⟨t, ht_mem, ht_id, ht_cat, ht_len, ht_end⟩
    have ht_cat_n : t.id.createdAt = n.id.createdAt := by
      rw [ht_id, ht_cat, hcat]
    have ht_eq_n : t = n := by
      by_cases htid : t.id = n.id
      · exact nodup_id_eq hwf.ids_nodup ht_mem hmem htid
      · exfalso
        have hd := hwf.disjoint t ht_mem n hmem ht_cat_n htid
        have hte : t.id.offset + t.getContentLength =
            n.id.offset + n.getContentLength := by
          rw [ht_id]
          omega
        rcases hd with hd | hd
        · omega
        · omega
    rcases hfid : findById s.nodes pid with _ | w
    · exfalso
      have hin : (findById s.nodes pid).isSome := by
        rw [← ht_id]
        exact findById_isSome ht_mem
      rw [hfid] at hin
      simp at hin
    · rcases findById_spec hfid with ⟨hw_mem, hw_id⟩
      have hw_eq : w = n := by
        rw [← ht_eq_n]
        exact nodup_id_eq hwf.ids_nodup hw_mem ht_mem (by rw [hw_id, ht_id])
      show findById s.nodes pid = some n
      rw [hfid, hw_eq]

/-- Round trip at index 0: the floor of the initial id is the head sentinel. -/
theorem preferLeft_resolves_head {s : RGATreeSplit} (hwf : WF s) :
    findFloorNodePreferToLeft s.nodes initialNodeID = some headNode := by
  rcases wf_head_cons hwf with ⟨tail, hcons⟩
  have hmem : headNode ∈ s.nodes := by
    rw [hcons]
    simp
  have hle : RGATreeSplitNodeID.leP headNode.id initialNodeID := idle_refl _
  have hsome := floorEntry_isSome hmem hle
  rcases hfl : floorEntry s.nodes initialNodeID with _ | m
  · rw [hfl] at hsome
    simp at hsome
  rcases floorEntry_spec hfl with ⟨hm_mem, hm_le, _⟩
  have hm_eq : m = headNode := by
    rw [hcons] at hm_mem
    rcases List.mem_cons.mp hm_mem with h1 | h1
    · exact h1
    · exfalso
      have hlt := hwf.init_min m (by rw [hcons]; exact h1)
      rcases idle_elim hm_le with hc | ⟨hc, _⟩
      · exact ttlt_asymm hc hlt
      · rw [hc] at hlt
        exact ttlt_irrefl _ hlt
  have hcond : m.id = initialNodeID ∨
      m.id.hasSameCreatedAt initialNodeID = true := by
    left
    rw [hm_eq]
    rfl
  simp only [findFloorNodePreferToLeft, findFloorNode, hfl, if_pos hcond]
  have hneg : ¬ (0 < initialNodeID.offset ∧ m.id.offset = initialNodeID.offset) := by
    intro hp
    have hx := hp.1
    simp [initialNodeID] at hx
  rw [if_neg hneg, hm_eq]

/-- Claim helper: the round trip `posToIndex (indexToPos i) true = i` holds in
every well-formed split list for every index within the visible length. -/
theorem rga_roundtrip {s : RGATreeSplit} (hwf : WF s) {i : Nat}
    (hi : i ≤ s.length) :
    (s.indexToPos i).bind (fun p => s.posToIndex p true) = some i := by
  rcases wf_head_cons hwf with ⟨tail, hcons⟩
  have hne : s.nodes ≠ [] := by
    rw [hcons]
    simp
  have hfs := splayFind_total hne hi
  rcases hfind : splayFind s.nodes i with _ | ⟨n, off⟩
  · rw [hfind] at hfs
    simp at hfs
  rw [RGATreeSplit.indexToPos, hfind]
  show s.posToIndex ⟨n.id, off⟩ true = some i
  rcases Nat.eq_zero_or_pos i with hz | hpos
  · subst hz
    have hzero : splayFind s.nodes 0 = some (headNode, 0) := by
      rw [hcons]
      exact splayFind_zero _ _
    rw [hfind] at hzero
    injection hzero with hzero
    injection hzero with h1 h2
    subst h1
    subst h2
    have habs : RGATreeSplitPos.getAbsoluteID ⟨headNode.id, 0⟩ = initialNodeID := by
      simp [RGATreeSplitPos.getAbsoluteID, headNode, initialNodeID]
    have hidx : indexOfId s.nodes headNode.id = some 0 := by
      rw [hcons, indexOfId]
      simp
    simp only [RGATreeSplit.posToIndex, habs, if_true,
      preferLeft_resolves_head hwf, hidx]
    simp [RGATreeSplitNode.isRemoved, headNode, initialNodeID]
  · rcases splayFind_pos hpos hfind with ⟨pre, post, hsplit, hsum, ho1, ho2⟩
    have hmem : n ∈ s.nodes := by
      rw [hsplit]
      simp
    have hlen_pos : 0 < n.getLength := by omega
    rcases getLength_pos_elim hlen_pos with ⟨hnr, hlen_eq⟩
    have hoff2 : off ≤ n.getContentLength := by omega
    have habs : RGATreeSplitPos.getAbsoluteID ⟨n.id, off⟩ =
        (⟨n.id.createdAt, n.id.offset + off⟩ : RGATreeSplitNodeID) := by
      simp [RGATreeSplitPos.getAbsoluteID]
    have hidx : indexOfId s.nodes n.id = some (visibleLength pre) := by
      rw [hsplit]
      apply indexOfId_spec
      rw [← hsplit]
      exact hwf.ids_nodup
    have hrem : n.isRemoved = false := by
      simp [RGATreeSplitNode.isRemoved, hnr]
    simp only [RGATreeSplit.posToIndex, habs, if_true,
      preferLeft_resolves hwf hmem hnr ho1 hoff2, hidx, hrem,
      Bool.false_eq_true, if_false, Option.some.injEq]
    show visibleLength pre + (n.id.offset + off - n.id.offset) = i
    omega

/-- The initial split list is well formed. -/
theorem WF_create : WF RGATreeSplit.create := by
  constructor
  · rfl
  · intro n hn
    simp [RGATreeSplit.create] at hn
  · show ([headNode] : List RGATreeSplitNode).Pairwise (fun a b => a.id ≠ b.id)
    simp
  · intro n hn m hm _ hne
    simp [RGATreeSplit.create] at hn hm
    rw [hn, hm] at hne
    exact absurd rfl hne
  · intro n hn pid hp
    simp [RGATreeSplit.create] at hn
    rw [hn] at hp
    cases hp
  · intro n hn hoff
    simp [RGATreeSplit.create] at hn
    rw [hn] at hoff
    exact absurd rfl hoff

/-- Well-formedness is preserved by any per-node map that keeps the id, the
content length and the `insPrev` link, and fixes the head sentinel. -/
theorem WF_map_shape {s : RGATreeSplit} (hwf : WF s)
    (f : RGATreeSplitNode → RGATreeSplitNode)
    (hid : ∀ n, (f n).id = n.id)
    (hlen : ∀ n, (f n).getContentLength = n.getContentLength)
    (hip : ∀ n, (f n).insPrev = n.insPrev)
    (hhead : f headNode = headNode) :
    WF ⟨s.nodes.map f⟩ := by
  rcases wf_head_cons hwf with ⟨tail, hcons⟩
  have htail : s.nodes.tail = tail := by
    rw [hcons]
    rfl
  constructor
  · rw [hcons]
    simp [hhead]
  · intro n hn
    rw [hcons] at hn
    simp only [List.map_cons, List.tail_cons] at hn
    rcases List.mem_map.mp hn with ⟨x, hx, rfl⟩
    rw [hid]
    exact hwf.init_min x (by rw [htail]; exact hx)
  · show (s.nodes.map f).Pairwise _
    rw [List.pairwise_map]
    apply hwf.ids_nodup.imp
    intro a b hab
    rw [hid, hid]
    exact hab
  · intro n hn m hm hcat hne
    rcases List.mem_map.mp hn with ⟨x, hx, rfl⟩
    rcases List.mem_map.mp hm with ⟨y, hy, rfl⟩
    rw [hid, hid] at hcat hne
    rw [hid, hlen, hid, hlen]
    exact hwf.disjoint x hx y hy hcat hne
  · intro n hn pid hp
    rcases List.mem_map.mp hn with ⟨x, hx, rfl⟩
    rw [hip] at hp
    rcases hwf.insPrev_sound x hx pid hp with ⟨m, hm_mem, hm_id, hm_cat, hm_len, hm_end⟩
    refine ⟨f m, List.mem_map.mpr ⟨m, hm_mem, rfl⟩, ?_, ?_, ?_, ?_⟩
    · rw [hid, hm_id]
    · rw [hid]
      exact hm_cat
    · rw [hlen]
      exact hm_len
    · rw [hlen, hid]
      exact hm_end
  · intro n hn hoff
    rcases List.mem_map.mp hn with ⟨x, hx, rfl⟩
    rw [hip]
    rw [hid] at hoff
    exact hwf.insPrev_total x hx hoff

/-- Tombstoning any set of non-head nodes preserves well-formedness. -/
theorem WF_tombstone {s : RGATreeSplit} (hwf : WF s)
    (ids : List RGATreeSplitNodeID)
    (hh : ∀ id ∈ ids, id ≠ initialNodeID) (t : TimeTicket) :
    WF ⟨s.nodes.map (fun n =>
      if n.id ∈ ids then { n with removedAt := some t } else n)⟩ := by
  apply WF_map_shape hwf
  · intro n
    split
    · rfl
    · rfl
  · intro n
    split
    · rfl
    · rfl
  · intro n
    split
    · rfl
    · rfl
  · have hmem : headNode.id ∉ ids := fun hc => (hh _ hc) rfl
    show (if headNode.id ∈ ids then { headNode with removedAt := some t }
      else headNode) = headNode
    rw [if_neg hmem]

theorem insertAfterL_decomp {l : List RGATreeSplitNode}
    {pid : RGATreeSplitNodeID} {x : RGATreeSplitNode} :
    ∀ {l' : List RGATreeSplitNode}, insertAfterL l pid x = some l' →
    ∃ l1 l2, l = l1 ++ l2 ∧ l' = l1 ++ x :: l2 ∧ l1 ≠ [] := by
  induction l with
  | nil =>
    intro l' h
    simp [insertAfterL] at h
  | cons a t ih =>
    intro l' h
    rw [insertAfterL] at h
    by_cases hc : a.id = pid
    · rw [if_pos hc] at h
      injection h with h
      subst h
      exact ⟨[a], t, rfl, rfl, by simp⟩
    · rw [if_neg hc] at h
      rcases hmap : insertAfterL t pid x with _ | l''
      · rw [hmap] at h
        cases h
      · rw [hmap] at h
        have h2 : some (a :: l'') = some l' := h
        injection h2 with h2
        rcases ih hmap with ⟨l1, l2, he1, he2, _⟩
        refine ⟨a :: l1, l2, by rw [he1]; rfl, by rw [← h2, he2]; rfl, by simp⟩

/-- Inserting a freshly created node (new creation ticket, offset 0, no
tombstone, no `insPrev`) preserves well-formedness. -/
theorem WF_insertAfter {s : RGATreeSplit} (hwf : WF s)
    {pid : RGATreeSplitNodeID} {editedAt : TimeTicket} {v : CRDTTextValue}
    {l' : List RGATreeSplitNode}
    (hfresh : ∀ n ∈ s.nodes, n.id.createdAt ≠ editedAt)
    (hinit : TimeTicket.ltP InitialTimeTicket editedAt)
    (h : insertAfterL s.nodes pid ⟨⟨editedAt, 0⟩, some v, none, none⟩ = some l') :
    WF ⟨l'⟩ := by
  set x : RGATreeSplitNode := ⟨⟨editedAt, 0⟩, some v, none, none⟩ with hx
  rcases insertAfterL_decomp h with ⟨l1, l2, he1, he2, hne⟩
  rcases wf_head_cons hwf with ⟨tail, hcons⟩
  rcases l1 with _ | ⟨b, l1'⟩
  · exact absurd rfl hne
  have hb : b = headNode := by
    rw [hcons, List.cons_append] at he1
    injection he1 with hb _
    exact hb.symm
  have he1' : s.nodes = b :: (l1' ++ l2) := by rw [he1]; rfl
  have he2' : l' = b :: (l1' ++ x :: l2) := by rw [he2]; rfl
  have htail : s.nodes.tail = l1' ++ l2 := by
    rw [he1']
    rfl
  have hmem_old : ∀ y ∈ l1' ++ x :: l2, y = x ∨ y ∈ l1' ++ l2 := by
    intro y hy
    rcases List.mem_append.mp hy with hy | hy
    · exact Or.inr (List.mem_append.mpr (Or.inl hy))
    · rcases List.mem_cons.mp hy with hy | hy
      · exact Or.inl hy
      · exact Or.inr (List.mem_append.mpr (Or.inr hy))
  have hmem_all : ∀ y ∈ l', y = x ∨ y ∈ s.nodes := by
    intro y hy
    rw [he2] at hy
    rcases List.mem_append.mp hy with hy | hy
    · exact Or.inr (by rw [he1]; exact List.mem_append.mpr (Or.inl hy))
    · rcases List.mem_cons.mp hy with hy | hy
      · exact Or.inl hy
      · exact Or.inr (by rw [he1]; exact List.mem_append.mpr (Or.inr hy))
  have hxfresh : ∀ y ∈ s.nodes, y.id ≠ x.id := by
    intro y hy hc
    exact hfresh y hy (by rw [hc])
  constructor
  · rw [he2', hb]
    rfl
  · intro n hn
    rw [he2'] at hn
    simp only [List.tail_cons] at hn
    rcases hmem_old n hn with rfl | hn2
    · exact hinit
    · exact hwf.init_min n (by rw [htail]; exact hn2)
  · show l'.Pairwise _
    rw [he2']
    have hpw : (b :: (l1' ++ l2)).Pairwise (fun a b => a.id ≠ b.id) := by
      rw [← he1']
      exact hwf.ids_nodup
    have : (b :: (l1' ++ x :: l2)) = (b :: l1') ++ x :: l2 := by simp
    rw [this, List.pairwise_middle (fun hab => Ne.symm hab)]
    constructor
    · intro y hy
      have hymem : y ∈ s.nodes := by
        rw [he1']
        rcases List.mem_append.mp hy with hy | hy
        · rcases List.mem_cons.mp hy with hy | hy
          · exact List.mem_cons.mpr (Or.inl hy)
          · exact List.mem_cons.mpr (Or.inr (List.mem_append.mpr (Or.inl hy)))
        · exact List.mem_cons.mpr (Or.inr (List.mem_append.mpr (Or.inr hy)))
      exact fun hc => hxfresh y hymem hc.symm
    · have : (b :: l1') ++ l2 = b :: (l1' ++ l2) := by simp
      rw [this]
      exact hpw
  · intro n hn m hm hcat hne
    rcases hmem_all n hn with rfl | hn2
    · rcases hmem_all m hm with rfl | hm2
      · exact absurd rfl hne
      · exact absurd (hcat.symm) (hfresh m hm2)
    · rcases hmem_all m hm with rfl | hm2
      · exact absurd hcat (hfresh n hn2)
      · exact hwf.disjoint n hn2 m hm2 hcat hne
  · intro n hn pid2 hp
    rcases hmem_all n hn with rfl | hn2
    · cases hp
    · rcases hwf.insPrev_sound n hn2 pid2 hp with ⟨m, hm_mem, hrest⟩
      refine ⟨m, ?_, hrest⟩
      rw [he2]
      rw [he1] at hm_mem
      rcases List.mem_append.mp hm_mem with hm | hm
      · exact List.mem_append.mpr (Or.inl hm)
      · exact List.mem_append.mpr (Or.inr (List.mem_cons.mpr (Or.inr hm)))
  · intro n hn hoff
    rcases hmem_all n hn with rfl | hn2
    · exact absurd rfl hoff
    · exact hwf.insPrev_total n hn2 hoff

theorem replaceSplit_decomp {l1 l2 : List RGATreeSplitNode}
    {u : RGATreeSplitNode} {nid : RGATreeSplitNodeID} {offset : Nat}
    {v : CRDTTextValue} (hl1 : ∀ y ∈ l1, y.id ≠ nid) (hu : u.id = nid)
    (hv : u.value = some v) :
    replaceSplit (l1 ++ u :: l2) nid offset =
      l1 ++ { u with value := some (splitValueLeft v offset) } ::
        (⟨⟨u.id.createdAt, u.id.offset + offset⟩,
          some (splitValueRight v offset), u.removedAt, some u.id⟩ :
            RGATreeSplitNode) :: l2 := by
  induction l1 with
  | nil =>
    rw [List.nil_append, replaceSplit, if_pos hu, hv]
    rfl
  | cons a t ih =>
    have ha : a.id ≠ nid := hl1 a (by simp)
    have ht : ∀ y ∈ t, y.id ≠ nid := fun y hy => hl1 y (by simp [hy])
    rw [List.cons_append, replaceSplit, if_neg ha, ih ht]
    rfl

/-- Splitting a node preserves well-formedness, and creates no node with a
creation ticket that was not already present. -/
theorem WF_splitNodeAt {s s' : RGATreeSplit} (hwf : WF s)
    {nid : RGATreeSplitNodeID} {offset : Nat}
    (h : splitNodeAt s nid offset = some s') :
    WF s' ∧ (∀ y ∈ s'.nodes, ∃ x ∈ s.nodes, y.id.createdAt = x.id.createdAt) ∧
      ∀ x ∈ s.nodes, ∃ y ∈ s'.nodes, y.id = x.id ∧ y.removedAt = x.removedAt := by
  unfold splitNodeAt at h
  rcases hfid : findById s.nodes nid with _ | u
  · rw [hfid] at h
    cases h
  rw [hfid] at h
  replace h : (if u.getContentLength < offset then (none : Option RGATreeSplit)
      else if offset = 0 then some s
      else if offset = u.getContentLength then some s
      else some ⟨replaceSplit (rewireInsNext s.nodes nid
        ⟨nid.createdAt, nid.offset + offset⟩) nid offset⟩) = some s' := h
  rcases findById_spec hfid with ⟨hu_mem, hu_id⟩
  by_cases h1 : u.getContentLength < offset
  · rw [if_pos h1] at h
    cases h
  rw [if_neg h1] at h
  by_cases h2 : offset = 0
  · rw [if_pos h2] at h
    injection h with h
    rw [← h]
    exact ⟨hwf, fun y hy => ⟨y, hy, rfl⟩, fun x hx => ⟨x, hx, rfl, rfl⟩⟩
  rw [if_neg h2] at h
  by_cases h3 : offset = u.getContentLength
  · rw [if_pos h3] at h
    injection h with h
    rw [← h]
    exact ⟨hwf, fun y hy => ⟨y, hy, rfl⟩, fun x hx => ⟨x, hx, rfl, rfl⟩⟩
  rw [if_neg h3] at h
  injection h with h
  have hvpos : 0 < u.getContentLength := by omega
  rcases hval : u.value with _ | v
  · exfalso
    unfold RGATreeSplitNode.getContentLength at hvpos
    rw [hval] at hvpos
    simp at hvpos
  have hulen : u.getContentLength = v.content.length := by
    unfold RGATreeSplitNode.getContentLength
    rw [hval]
  rcases List.append_of_mem hu_mem with ⟨l1, l2, hdec⟩
  set rightId : RGATreeSplitNodeID := ⟨nid.createdAt, nid.offset + offset⟩
    with hrid
  set g : RGATreeSplitNode → RGATreeSplitNode := fun w =>
    if w.insPrev = some nid ∧ w.id ≠ nid then { w with insPrev := some rightId }
    else w with hg
  have hg_id : ∀ y, (g y).id = y.id := by
    intro y
    rw [hg]
    by_cases hc : y.insPrev = some nid ∧ y.id ≠ nid
    · simp only [if_pos hc]
    · simp only [if_neg hc]
  have hg_val : ∀ y, (g y).value = y.value := by
    intro y
    rw [hg]
    by_cases hc : y.insPrev = some nid ∧ y.id ≠ nid
    · simp only [if_pos hc]
    · simp only [if_neg hc]
  have hg_len : ∀ y, (g y).getContentLength = y.getContentLength := by
    intro y
    unfold RGATreeSplitNode.getContentLength
    rw [hg_val]
  have hg_rem : ∀ y, (g y).removedAt = y.removedAt := by
    intro y
    rw [hg]
    by_cases hc : y.insPrev = some nid ∧ y.id ≠ nid
    · simp only [if_pos hc]
    · simp only [if_neg hc]
  have hg_u : g u = u := by
    rw [hg]
    have : ¬ (u.insPrev = some nid ∧ u.id ≠ nid) := by
      intro hc
      exact hc.2 hu_id
    simp only [if_neg this]
  set uL : RGATreeSplitNode := { u with value := some (splitValueLeft v offset) }
    with huL
  set uR : RGATreeSplitNode :=
    ⟨⟨u.id.createdAt, u.id.offset + offset⟩, some (splitValueRight v offset),
      u.removedAt, some u.id⟩ with huR
  have hl1_ne : ∀ y ∈ l1, y.id ≠ nid := by
    intro y hy hc
    have hpw := hwf.ids_nodup
    rw [hdec] at hpw
    rcases List.pairwise_append.mp hpw with ⟨_, _, hrel⟩
    exact hrel y hy u (by simp) (by rw [hc, hu_id])
  have hl1g_ne : ∀ y ∈ l1.map g, y.id ≠ nid := by
    intro y hy
    rcases List.mem_map.mp hy with ⟨x, hx, rfl⟩
    rw [hg_id]
    exact hl1_ne x hx
  have hS' : s'.nodes =
      l1.map g ++ uL :: uR :: l2.map g := by
    rw [← h]
    show (replaceSplit (rewireInsNext s.nodes nid rightId) nid offset) =
      l1.map g ++ uL :: uR :: l2.map g
    have hrw : rewireInsNext s.nodes nid rightId =
        l1.map g ++ (g u) :: l2.map g := by
      unfold rewireInsNext
      rw [hdec]
      rw [List.map_append, List.map_cons]
    rw [hrw, hg_u]
    have := @replaceSplit_decomp (l1.map g) (l2.map g) u nid offset v
      hl1g_ne hu_id hval
    rw [this]
  -- u is not the head sentinel
  have hu_ne_head : u ≠ headNode := by
    intro hc
    rw [hc] at hval
    cases hval
  rcases wf_head_cons hwf with ⟨tail, hcons⟩
  have hg_head : g headNode = headNode := by
    rw [hg]
    have : ¬ (headNode.insPrev = some nid ∧ headNode.id ≠ nid) := by
      intro hc
      cases hc.1
    simp only [if_neg this]
  have hl1_cons : ∃ l1t, l1 = headNode :: l1t ∧ tail = l1t ++ u :: l2 := by
    rcases l1 with _ | ⟨b, l1t⟩
    · exfalso
      rw [hcons] at hdec
      simp only [List.nil_append] at hdec
      injection hdec with hb _
      exact hu_ne_head hb.symm
    · rw [hcons, List.cons_append] at hdec
      injection hdec with hb ht
      exact ⟨l1t, by rw [← hb], ht⟩
  -- membership characterisations
  have hmem_new : ∀ y ∈ s'.nodes,
      y = uL ∨ y = uR ∨ ∃ x, x ∈ s.nodes ∧ x.id ≠ nid ∧ y = g x := by
    intro y hy
    rw [hS'] at hy
    rcases List.mem_append.mp hy with hy | hy
    · rcases List.mem_map.mp hy with ⟨x, hx, rfl⟩
      refine Or.inr (Or.inr ⟨x, ?_, hl1_ne x hx, rfl⟩)
      rw [hdec]
      exact List.mem_append.mpr (Or.inl hx)
    · rcases List.mem_cons.mp hy with hy | hy
      · exact Or.inl hy
      · rcases List.mem_cons.mp hy with hy | hy
        · exact Or.inr (Or.inl hy)
        · rcases List.mem_map.mp hy with ⟨x, hx, rfl⟩
          refine Or.inr (Or.inr ⟨x, ?_, ?_, rfl⟩)
          · rw [hdec]
            exact List.mem_append.mpr (Or.inr (List.mem_cons.mpr (Or.inr hx)))
          · intro hc
            have hpw := hwf.ids_nodup
            rw [hdec] at hpw
            rcases List.pairwise_append.mp hpw with ⟨_, hp2, _⟩
            rcases List.pairwise_cons.mp hp2 with ⟨hrel, _⟩
            exact hrel x hx (by rw [hu_id, hc])
  have hmem_uL : uL ∈ s'.nodes := by
    rw [hS']
    exact List.mem_append.mpr (Or.inr (by simp))
  have hmem_uR : uR ∈ s'.nodes := by
    rw [hS']
    exact List.mem_append.mpr (Or.inr (by simp))
  have hmem_g : ∀ x ∈ s.nodes, x ≠ u → g x ∈ s'.nodes := by
    intro x hx hne
    rw [hdec] at hx
    rw [hS']
    rcases List.mem_append.mp hx with hx | hx
    · exact List.mem_append.mpr (Or.inl (List.mem_map.mpr ⟨x, hx, rfl⟩))
    · rcases List.mem_cons.mp hx with hx | hx
      · exact absurd hx hne
      · exact List.mem_append.mpr (Or.inr (List.mem_cons.mpr (Or.inr
          (List.mem_cons.mpr (Or.inr (List.mem_map.mpr ⟨x, hx, rfl⟩))))))
  -- lengths of the two halves
  have hov : offset ≤ v.content.length := by
    rw [← hulen]
    omega
  have hlenL : uL.getContentLength = offset := by
    rw [huL]
    unfold RGATreeSplitNode.getContentLength
    simp [splitValueLeft]
    omega
  have hlenR : uR.getContentLength = u.getContentLength - offset := by
    rw [hulen, huR]
    unfold RGATreeSplitNode.getContentLength
    simp [splitValueRight]
  -- the right half id is fresh
  have hfreshR : ∀ y ∈ s.nodes, y.id ≠ uR.id := by
    intro y hy hc
    have hcat : y.id.createdAt = u.id.createdAt := by
      rw [hc, huR]
    have hyoff : y.id.offset = u.id.offset + offset := by
      rw [hc, huR]
    have hyneu : y.id ≠ u.id := by
      intro hc2
      rw [hc2] at hyoff
      omega
    have hd := hwf.disjoint y hy u hu_mem hcat hyneu
    omega
  rcases hl1_cons with ⟨l1t, hl1e, htail_dec⟩
  have hinitu : TimeTicket.ltP InitialTimeTicket u.id.createdAt := by
    apply hwf.init_min u
    rw [hcons]
    show u ∈ tail
    rw [htail_dec]
    simp
  refine ⟨⟨?_, ?_, ?_, ?_, ?_, ?_⟩, ?_, ?_⟩
  · rw [hS', hl1e]
    show some (g headNode) = some headNode
    rw [hg_head]
  · intro n hn
    have hn_tail : n ∈ (l1t.map g) ++ uL :: uR :: l2.map g := by
      rw [hS', hl1e] at hn
      simpa using hn
    rcases List.mem_append.mp hn_tail with hx | hx
    · rcases List.mem_map.mp hx with ⟨x, hx2, rfl⟩
      rw [hg_id]
      apply hwf.init_min x
      rw [hcons]
      show x ∈ tail
      rw [htail_dec]
      exact List.mem_append.mpr (Or.inl hx2)
    · rcases List.mem_cons.mp hx with hx | hx
      · rw [hx, huL]
        exact hinitu
      · rcases List.mem_cons.mp hx with hx | hx
        · rw [hx, huR]
          exact hinitu
        · rcases List.mem_map.mp hx with ⟨x, hx2, rfl⟩
          rw [hg_id]
          apply hwf.init_min x
          rw [hcons]
          show x ∈ tail
          rw [htail_dec]
          exact List.mem_append.mpr (Or.inr (List.mem_cons.mpr (Or.inr hx2)))
  · show s'.nodes.Pairwise _
    rw [hS']
    have hmid : (l1.map g ++ uL :: uR :: l2.map g) =
        ((l1.map g ++ [uL]) ++ uR :: l2.map g) := by simp
    rw [hmid, List.pairwise_middle (fun hab => Ne.symm hab)]
    constructor
    · intro y hy hc
      have hyid : y.id ≠ uR.id := by
        rcases List.mem_append.mp hy with hy | hy
        · rcases List.mem_append.mp hy with hy | hy
          · rcases List.mem_map.mp hy with ⟨x, hx, rfl⟩
            rw [hg_id]
            apply hfreshR x
            rw [hdec]
            exact List.mem_append.mpr (Or.inl hx)
          · rcases List.mem_cons.mp hy with hy | hy
            · rw [hy, huL]
              intro hc2
              have : u.id.offset = u.id.offset + offset := by
                have := congrArg RGATreeSplitNodeID.offset hc2
                rw [huR] at this
                simpa using this
              omega
            · cases hy
        · rcases List.mem_map.mp hy with ⟨x, hx, rfl⟩
          rw [hg_id]
          apply hfreshR x
          rw [hdec]
          exact List.mem_append.mpr (Or.inr (List.mem_cons.mpr (Or.inr hx)))
      exact hyid hc.symm
    · have heq : (l1.map g ++ [uL]) ++ l2.map g = l1.map g ++ uL :: l2.map g := by
        simp
      rw [heq]
      have hold : (l1 ++ u :: l2).Pairwise (fun a b => a.id ≠ b.id) := by
        rw [← hdec]
        exact hwf.ids_nodup
      have hids : (l1.map g ++ uL :: l2.map g).map (fun y => y.id) =
          (l1 ++ u :: l2).map (fun y => y.id) := by
        rw [List.map_append, List.map_append, List.map_cons, List.map_cons,
          List.map_map, List.map_map]
        congr 1
        · apply List.map_congr_left
          intro x _
          exact hg_id x
        · congr 1
          apply List.map_congr_left
          intro x _
          exact hg_id x
      have h1 : ((l1 ++ u :: l2).map (fun y => y.id)).Pairwise Ne :=
        List.pairwise_map.mpr hold
      rw [← hids] at h1
      exact List.pairwise_map.mp h1
  · intro n hn m hm hcat hne
    have hoffLT : offset < u.getContentLength := by omega
    rcases hmem_new n hn with rfl | rfl | ⟨x, hx_mem, hx_ne, rfl⟩
    · rcases hmem_new m hm with rfl | rfl | ⟨y, hy_mem, hy_ne, rfl⟩
      · exact absurd rfl hne
      · left
        rw [hlenL]
      · have hxu : u.id ≠ y.id := by
          intro hc
          exact hy_ne (by rw [← hc, hu_id])
        have hcat2 : u.id.createdAt = y.id.createdAt := by
          have := hcat
          rw [hg_id] at this
          exact this
        have hd := hwf.disjoint u hu_mem y hy_mem hcat2 hxu
        have hylen := hg_len y
        have hyid := hg_id y
        show uL.id.offset + uL.getContentLength ≤ (g y).id.offset ∨
          (g y).id.offset + (g y).getContentLength ≤ uL.id.offset
        rw [hlenL, hylen, hyid]
        show u.id.offset + offset ≤ y.id.offset ∨
          y.id.offset + y.getContentLength ≤ u.id.offset
        omega
    · rcases hmem_new m hm with rfl | rfl | ⟨y, hy_mem, hy_ne, rfl⟩
      · right
        rw [hlenL]
      · exact absurd rfl hne
      · have hxu : u.id ≠ y.id := by
          intro hc
          exact hy_ne (by rw [← hc, hu_id])
        have hcat2 : u.id.createdAt = y.id.createdAt := by
          have := hcat
          rw [hg_id] at this
          rw [← this, huR]
        have hd := hwf.disjoint u hu_mem y hy_mem hcat2 hxu
        have hylen := hg_len y
        have hyid := hg_id y
        show uR.id.offset + uR.getContentLength ≤ (g y).id.offset ∨
          (g y).id.offset + (g y).getContentLength ≤ uR.id.offset
        rw [hlenR, hylen, hyid]
        show (u.id.offset + offset) + (u.getContentLength - offset) ≤ y.id.offset ∨
          y.id.offset + y.getContentLength ≤ u.id.offset + offset
        omega
    · rcases hmem_new m hm with rfl | rfl | ⟨y, hy_mem, hy_ne, rfl⟩
      · have hxu : u.id ≠ x.id := by
          intro hc
          exact hx_ne (by rw [← hc, hu_id])
        have hcat2 : x.id.createdAt = u.id.createdAt := by
          have := hcat
          rw [hg_id] at this
          exact this
        have hd := hwf.disjoint u hu_mem x hx_mem hcat2.symm hxu
        have hxlen := hg_len x
        have hxid := hg_id x
        show (g x).id.offset + (g x).getContentLength ≤ uL.id.offset ∨
          uL.id.offset + uL.getContentLength ≤ (g x).id.offset
        rw [hlenL, hxlen, hxid]
        show x.id.offset + x.getContentLength ≤ u.id.offset ∨
          u.id.offset + offset ≤ x.id.offset
        omega
      · have hxu : u.id ≠ x.id := by
          intro hc
          exact hx_ne (by rw [← hc, hu_id])
        have hcat2 : x.id.createdAt = u.id.createdAt := by
          have := hcat
          rw [hg_id] at this
          rw [this, huR]
        have hd := hwf.disjoint u hu_mem x hx_mem hcat2.symm hxu
        have hxlen := hg_len x
        have hxid := hg_id x
        show (g x).id.offset + (g x).getContentLength ≤ uR.id.offset ∨
          uR.id.offset + uR.getContentLength ≤ (g x).id.offset
        rw [hlenR, hxlen, hxid]
        show x.id.offset + x.getContentLength ≤ u.id.offset + offset ∨
          (u.id.offset + offset) + (u.getContentLength - offset) ≤ x.id.offset
        omega
      · have hcat2 : x.id.createdAt = y.id.createdAt := by
          have := hcat
          rw [hg_id, hg_id] at this
          exact this
        have hne2 : x.id ≠ y.id := by
          have := hne
          rw [hg_id, hg_id] at this
          exact this
        have hd := hwf.disjoint x hx_mem y hy_mem hcat2 hne2
        have hxlen := hg_len x
        have hxid := hg_id x
        have hylen := hg_len y
        have hyid := hg_id y
        rw [hxid, hxlen, hyid, hylen]
        exact hd
  · intro n hn pid2 hp
    have hoffLT : offset < u.getContentLength := by omega
    rcases hmem_new n hn with rfl | rfl | ⟨x, hx_mem, hx_ne, rfl⟩
    · have hpL : u.insPrev = some pid2 := hp
      rcases hwf.insPrev_sound u hu_mem pid2 hpL with
        ⟨m, hm_mem, hm_id, hm_cat, hm_len, hm_end⟩
      have hpid_ne : pid2 ≠ nid := by
        intro hc
        rw [hc] at hm_end
        rw [← hu_id] at hm_end
        omega
      have hm_ne_u : m ≠ u := by
        intro hc
        rw [hc, hu_id] at hm_id
        exact hpid_ne hm_id.symm
      refine ⟨g m, hmem_g m hm_mem hm_ne_u, ?_, ?_, ?_, ?_⟩
      · rw [hg_id, hm_id]
      · exact hm_cat
      · rw [hg_len]
        exact hm_len
      · rw [hg_len]
        exact hm_end
    · have hpR : some u.id = some pid2 := hp
      injection hpR with hpR
      subst hpR
      refine ⟨uL, hmem_uL, rfl, ?_, ?_, ?_⟩
      · rw [huR]
      · rw [hlenL]
        omega
      · rw [hlenL, huR]
    · by_cases hc : x.insPrev = some nid ∧ x.id ≠ nid
      · have hgx : g x = { x with insPrev := some rightId } := by
          rw [hg]
          simp only [if_pos hc]
        rw [hgx] at hp
        have hpid : pid2 = rightId := by
          have : some rightId = some pid2 := hp
          injection this with h2
          exact h2.symm
        subst hpid
        rcases hwf.insPrev_sound x hx_mem nid hc.1 with
          ⟨m, hm_mem, hm_id, hm_cat, hm_len, hm_end⟩
        have hm_eq_u : m = u := by
          apply nodup_id_eq hwf.ids_nodup hm_mem hu_mem
          rw [hm_id, hu_id]
        rw [hm_eq_u] at hm_end
        refine ⟨uR, hmem_uR, ?_, ?_, ?_, ?_⟩
        · rw [huR, hrid, hu_id]
        · rw [hrid, hgx]
          show nid.createdAt = x.id.createdAt
          exact hm_cat
        · rw [hlenR]
          omega
        · rw [hlenR, hrid, hgx]
          show nid.offset + offset + (u.getContentLength - offset) = x.id.offset
          omega
      · have hgx : g x = x := by
          rw [hg]
          simp only [if_neg hc]
        rw [hgx] at hp ⊢
        have hpid_ne : pid2 ≠ nid := by
          intro hcc
          exact hc ⟨by rw [hp, hcc], hx_ne⟩
        rcases hwf.insPrev_sound x hx_mem pid2 hp with
          ⟨m, hm_mem, hm_id, hm_cat, hm_len, hm_end⟩
        have hm_ne_u : m ≠ u := by
          intro hcc
          rw [hcc, hu_id] at hm_id
          exact hpid_ne hm_id.symm
        refine ⟨g m, hmem_g m hm_mem hm_ne_u, ?_, hm_cat, ?_, ?_⟩
        · rw [hg_id, hm_id]
        · rw [hg_len]
          exact hm_len
        · rw [hg_len]
          exact hm_end
  · intro n hn hoff
    rcases hmem_new n hn with rfl | rfl | ⟨x, hx_mem, hx_ne, rfl⟩
    · have : uL.insPrev = u.insPrev := rfl
      rw [this]
      exact hwf.insPrev_total u hu_mem hoff
    · rw [huR]
      rfl
    · by_cases hc : x.insPrev = some nid ∧ x.id ≠ nid
      · have hgx : g x = { x with insPrev := some rightId } := by
          rw [hg]
          simp only [if_pos hc]
        rw [hgx]
        rfl
      · have hgx : g x = x := by
          rw [hg]
          simp only [if_neg hc]
        rw [hgx] at hoff ⊢
        exact hwf.insPrev_total x hx_mem hoff
  · intro y hy
    rcases hmem_new y hy with rfl | rfl | ⟨x, hx_mem, _, rfl⟩
    · exact ⟨u, hu_mem, rfl⟩
    · exact ⟨u, hu_mem, by rw [huR]⟩
    · exact ⟨x, hx_mem, by rw [hg_id]⟩
  · intro x hx
    by_cases hxu : x = u
    · subst hxu
      exact ⟨uL, hmem_uL, rfl, rfl⟩
    · refine ⟨g x, hmem_g x hx hxu, hg_id x, hg_rem x⟩

theorem suffixFrom_cons {l : List RGATreeSplitNode} {nid : RGATreeSplitNodeID} :
    ∀ {suf}, suffixFrom l nid = some suf →
      ∃ p u rest, suf = u :: rest ∧ l = p ++ u :: rest ∧ u.id = nid := by
  induction l with
  | nil =>
    intro suf h
    simp [suffixFrom] at h
  | cons a t ih =>
    intro suf h
    rw [suffixFrom] at h
    by_cases hc : a.id = nid
    · rw [if_pos hc] at h
      injection h with h
      exact ⟨[], a, t, h.symm, rfl, hc⟩
    · rw [if_neg hc] at h
      rcases ih h with ⟨p, u, rest, hsuf, hl, hu⟩
      exact ⟨a :: p, u, rest, hsuf, by rw [hl]; rfl, hu⟩

theorem suffix_mem_tail {s : RGATreeSplit} (hwf : WF s)
    {nid : RGATreeSplitNodeID} {u : RGATreeSplitNode}
    {rest : List RGATreeSplitNode}
    (h : suffixFrom s.nodes nid = some (u :: rest)) :
    u ∈ s.nodes ∧ (∀ x ∈ rest, x ∈ s.nodes.tail) ∧
      (nid ≠ initialNodeID → ∀ x ∈ u :: rest, x ∈ s.nodes.tail) := by
  rcases suffixFrom_cons h with ⟨p, u', rest', hsuf, hl, hu⟩
  injection hsuf with hu' hrest'
  subst hu'
  subst hrest'
  rcases wf_head_cons hwf with ⟨tail, hcons⟩
  rcases p with _ | ⟨b, p'⟩
  · rw [hcons] at hl
    simp only [List.nil_append] at hl
    injection hl with hb ht
    constructor
    · rw [hcons, ← hb, ht]
      simp
    constructor
    · intro x hx
      rw [hcons]
      show x ∈ tail
      rw [ht]
      exact hx
    · intro hne
      exfalso
      apply hne
      rw [← hu, ← hb]
      rfl
  · rw [hcons, List.cons_append] at hl
    injection hl with _ ht
    have htail : ∀ x ∈ u :: rest, x ∈ s.nodes.tail := by
      intro x hx
      rw [hcons]
      show x ∈ tail
      rw [ht]
      exact List.mem_append.mpr (Or.inr hx)
    refine ⟨?_, ?_, fun _ => htail⟩
    · exact List.mem_of_mem_tail (htail u (by simp))
    · intro x hx
      exact htail x (List.mem_cons.mpr (Or.inr hx))

theorem skipConcurrentNodes_mem (editedAt : TimeTicket) :
    ∀ (u : RGATreeSplitNode) (rest : List RGATreeSplitNode)
      {l : RGATreeSplitNode} {r : Option RGATreeSplitNode},
    skipConcurrentNodes editedAt u rest = (l, r) →
    (l = u ∨ l ∈ rest) ∧ ∀ rr, r = some rr → rr ∈ rest := by
  intro u rest
  induction rest generalizing u with
  | nil =>
    intro l r h
    rw [skipConcurrentNodes] at h
    injection h with h1 h2
    subst h1
    subst h2
    refine ⟨Or.inl rfl, ?_⟩
    intro rr hrr
    cases hrr
  | cons w t ih =>
    intro l r h
    rw [skipConcurrentNodes] at h
    by_cases hc : w.id.createdAt.after editedAt = true
    · rw [if_pos hc] at h
      rcases ih w h with ⟨h1, h2⟩
      constructor
      · rcases h1 with rfl | h1
        · exact Or.inr (by simp)
        · exact Or.inr (List.mem_cons.mpr (Or.inr h1))
      · intro rr hrr
        exact List.mem_cons.mpr (Or.inr (h2 rr hrr))
    · rw [if_neg hc] at h
      injection h with h1 h2
      subst h1
      subst h2
      refine ⟨Or.inl rfl, ?_⟩
      intro rr hrr
      injection hrr with hrr
      subst hrr
      simp

theorem tail_ne_init {s : RGATreeSplit} (hwf : WF s) :
    ∀ c ∈ s.nodes.tail, c.id ≠ initialNodeID := by
  intro c hc hceq
  have hlt := hwf.init_min c hc
  rw [hceq] at hlt
  exact ttlt_irrefl _ hlt

/-- Splitting at a position (`findNodeWithSplit`) preserves well-formedness
and the id/tombstone data of the existing nodes; the returned right node sits
strictly after the head sentinel. -/
theorem findNodeWithSplit_wf {s : RGATreeSplit} (hwf : WF s)
    {pos : RGATreeSplitPos} {editedAt : TimeTicket} {s1 : RGATreeSplit}
    {left : RGATreeSplitNode} {right : Option RGATreeSplitNode}
    (h : s.findNodeWithSplit pos editedAt = some (s1, left, right)) :
    WF s1 ∧ (∀ y ∈ s1.nodes, ∃ x ∈ s.nodes, y.id.createdAt = x.id.createdAt) ∧
      (∀ x ∈ s.nodes, ∃ y ∈ s1.nodes, y.id = x.id ∧ y.removedAt = x.removedAt) ∧
      left ∈ s1.nodes ∧ ∀ r, right = some r → r ∈ s1.nodes.tail := by
  unfold RGATreeSplit.findNodeWithSplit at h
  replace h : (do
      let node ← findFloorNodePreferToLeft s.nodes pos.getAbsoluteID
      let t1 ← splitNodeAt s node.id (pos.getAbsoluteID.offset - node.id.offset)
      let suffix ← suffixFrom t1.nodes node.id
      match suffix with
        | [] => none
        | u :: rest => some (t1, skipConcurrentNodes editedAt u rest)) =
      some (s1, left, right) := h
  rcases h1 : findFloorNodePreferToLeft s.nodes pos.getAbsoluteID with _ | node
  · rw [h1] at h
    simp at h
  rw [h1] at h
  simp only [Option.bind_eq_bind, Option.some_bind] at h
  rcases h2 : splitNodeAt s node.id
      (pos.getAbsoluteID.offset - node.id.offset) with _ | s1'
  · rw [h2] at h
    simp at h
  rw [h2] at h
  simp only [Option.some_bind] at h
  rcases h3 : suffixFrom s1'.nodes node.id with _ | suf
  · rw [h3] at h
    simp at h
  rw [h3] at h
  simp only [Option.some_bind] at h
  rcases suf with _ | ⟨u, rest⟩
  · simp at h
  replace h : (s1', skipConcurrentNodes editedAt u rest) = (s1, left, right) := by
    injection h
  rw [Prod.mk.injEq] at h
  obtain ⟨hs1, hlr⟩ := h
  subst hs1
  rcases WF_splitNodeAt hwf h2 with ⟨hwf1, hcats, hrem⟩
  rcases suffix_mem_tail hwf1 h3 with ⟨hu_mem, hrest_tail, _⟩
  rcases skipConcurrentNodes_mem editedAt u rest hlr with ⟨hleft, hright⟩
  refine ⟨hwf1, hcats, hrem, ?_, ?_⟩
  · rcases hleft with rfl | hleft
    · exact hu_mem
    · exact List.mem_of_mem_tail (hrest_tail left hleft)
  · intro r hr
    exact hrest_tail r (hright r hr)

theorem findBetween_tail {s : RGATreeSplit} (hwf : WF s)
    {fromId : RGATreeSplitNodeID} {toId : Option RGATreeSplitNodeID}
    {cands : List RGATreeSplitNode} (hfrom : fromId ≠ initialNodeID)
    (h : s.findBetween fromId toId = some cands) :
    ∀ c ∈ cands, c ∈ s.nodes.tail := by
  unfold RGATreeSplit.findBetween at h
  rcases h1 : suffixFrom s.nodes fromId with _ | suf
  · rw [h1] at h
    simp at h
  rw [h1] at h
  simp only [Option.bind_eq_bind, Option.some_bind] at h
  replace h : some (suf.takeWhile (fun n => decide (some n.id ≠ toId))) =
      some cands := h
  injection h with h
  rcases suf with _ | ⟨u, rest⟩
  · rw [← h]
    intro c hc
    simp at hc
  rcases suffix_mem_tail hwf h1 with ⟨_, _, hall⟩
  intro c hc
  rw [← h] at hc
  exact hall hfrom c (List.takeWhile_subset _ hc)

/-- The deletion phase preserves well-formedness provided the head sentinel is
not among the candidates; every node keeps its id and its tombstone changes
exactly on the reported removed ids. -/
theorem WF_deleteNodes {s s' : RGATreeSplit} (hwf : WF s)
    {candidates : List RGATreeSplitNode} {editedAt : TimeTicket}
    {vv : Option VersionVector} {changes : List ValueChange}
    {removedIds : List RGATreeSplitNodeID}
    (hcand : ∀ c ∈ candidates, c.id ≠ initialNodeID)
    (h : s.deleteNodes candidates editedAt vv = some (s', changes, removedIds)) :
    WF s' ∧ (∀ y ∈ s'.nodes, ∃ x ∈ s.nodes, y.id.createdAt = x.id.createdAt) ∧
      ∀ x ∈ s.nodes, ∃ y ∈ s'.nodes, y.id = x.id ∧
        y.removedAt = (if x.id ∈ removedIds then some editedAt
          else x.removedAt) := by
  unfold RGATreeSplit.deleteNodes at h
  by_cases hemp : candidates.isEmpty
  · rw [if_pos hemp] at h
    injection h with h
    rw [Prod.mk.injEq] at h
    obtain ⟨hs, h2⟩ := h
    rw [Prod.mk.injEq] at h2
    obtain ⟨_, hids⟩ := h2
    subst hs
    refine ⟨hwf, fun y hy => ⟨y, hy, rfl⟩, ?_⟩
    intro x hx
    refine ⟨x, hx, rfl, ?_⟩
    rw [← hids]
    simp
  rw [if_neg hemp] at h
  rcases hf : s.filterNodes candidates editedAt vv with _ | dk
  · rw [hf] at h
    simp at h
  rw [hf] at h
  simp only [Option.bind_eq_bind, Option.some_bind] at h
  rcases dk with ⟨dels, keeps⟩
  rcases hm : s.makeChanges keeps editedAt with _ | chs
  · rw [hm] at h
    simp at h
  rw [hm] at h
  simp only [Option.some_bind] at h
  replace h : some
      ((⟨s.nodes.map (fun n =>
          if n.id ∈ dels.map (fun d => d.id) then { n with removedAt := some editedAt }
          else n)⟩ : RGATreeSplit), chs, dels.map (fun d => d.id)) =
      some (s', changes, removedIds) := h
  injection h with h
  rw [Prod.mk.injEq] at h
  obtain ⟨hs, h2⟩ := h
  rw [Prod.mk.injEq] at h2
  obtain ⟨_, hids⟩ := h2
  have hdels : ∀ d ∈ dels, d ∈ candidates := by
    unfold RGATreeSplit.filterNodes at hf
    rcases he : findEdgesOfCandidates s candidates with _ | lr
    · rw [he] at hf
      cases hf
    rw [he] at hf
    rcases lr with ⟨le, re⟩
    replace hf : some (candidates.filter (fun n =>
        n.canDelete editedAt (clientLamportAt vv n.id.createdAt.actor)),
        some le :: (candidates.filter (fun n =>
          !n.canDelete editedAt (clientLamportAt vv n.id.createdAt.actor))).map some
          ++ [re]) = some (dels, keeps) := hf
    injection hf with hf
    rw [Prod.mk.injEq] at hf
    obtain ⟨hdels, _⟩ := hf
    rw [← hdels]
    intro d hd
    exact List.mem_of_mem_filter hd
  have hids_ne : ∀ id ∈ removedIds, id ≠ initialNodeID := by
    intro id hid
    rw [← hids] at hid
    rcases List.mem_map.mp hid with ⟨d, hd, rfl⟩
    exact hcand d (hdels d hd)
  constructor
  · rw [← hs]
    have := WF_tombstone hwf (dels.map (fun d => d.id))
      (by
        intro id hid
        apply hids_ne
        rw [← hids]
        exact hid) editedAt
    exact this
  constructor
  · intro y hy
    rw [← hs] at hy
    rcases List.mem_map.mp hy with ⟨x, hx, rfl⟩
    refine ⟨x, hx, ?_⟩
    by_cases hc : x.id ∈ dels.map (fun d => d.id)
    · simp only [if_pos hc]
    · simp only [if_neg hc]
  · intro x hx
    rw [← hs]
    refine ⟨(fun n => if n.id ∈ dels.map (fun d => d.id)
      then { n with removedAt := some editedAt } else n) x,
      List.mem_map.mpr ⟨x, hx, rfl⟩, ?_, ?_⟩
    · by_cases hc : x.id ∈ dels.map (fun d => d.id)
      · simp only [if_pos hc]
      · simp only [if_neg hc]
    · rw [← hids]
      by_cases hc : x.id ∈ dels.map (fun d => d.id)
      · simp only [if_pos hc]
      · simp only [if_neg hc]

/-- An edit preserves well-formedness whenever the edit ticket is fresh. -/
theorem WF_edit {s : RGATreeSplit} (hwf : WF s)
    {range : RGATreeSplitPos × RGATreeSplitPos} {editedAt : TimeTicket}
    {value : Option CRDTTextValue} {vv : Option VersionVector} {r : EditResult}
    (hfresh : ∀ n ∈ s.nodes, n.id.createdAt ≠ editedAt)
    (hinit : TimeTicket.ltP InitialTimeTicket editedAt)
    (h : s.edit range editedAt value vv = some r) : WF r.state := by
  unfold RGATreeSplit.edit at h
  rcases h1 : s.findNodeWithSplit range.2 editedAt with _ | tlr
  · rw [h1] at h
    simp at h
  rw [h1] at h
  simp only [Option.bind_eq_bind, Option.some_bind] at h
  rcases tlr with ⟨s1, toLeft, toRight⟩
  rcases findNodeWithSplit_wf hwf h1 with ⟨hwf1, hcats1, _, _, _⟩
  rcases h2 : s1.findNodeWithSplit range.1 editedAt with _ | flr
  · rw [h2] at h
    simp at h
  rw [h2] at h
  simp only [Option.some_bind] at h
  rcases flr with ⟨s2, fromLeft, fromRight⟩
  rcases findNodeWithSplit_wf hwf1 h2 with ⟨hwf2, hcats2, _, _, hright2⟩
  dsimp only at h
  have hcand : ∀ (cands : List RGATreeSplitNode),
      editCandidates s2 fromRight toRight = some cands →
      ∀ c ∈ cands, c.id ≠ initialNodeID := by
    intro cands hc c hcc
    rcases fromRight with _ | fr
    · replace hc : some ([] : List RGATreeSplitNode) = some cands := hc
      injection hc with hc
      rw [← hc] at hcc
      cases hcc
    · replace hc : s2.findBetween fr.id (toRight.map (fun n => n.id)) =
        some cands := hc
      have hfr_tail := hright2 fr rfl
      have hfr_ne : fr.id ≠ initialNodeID := tail_ne_init hwf2 fr hfr_tail
      have := findBetween_tail hwf2 hfr_ne hc c hcc
      exact tail_ne_init hwf2 c this
  rcases h3 : editCandidates s2 fromRight toRight with _ | cands
  · rw [h3] at h
    simp at h
  rw [h3] at h
  simp only [Option.some_bind] at h
  rcases h4 : s2.deleteNodes cands editedAt vv with _ | scr
  · rw [h4] at h
    simp at h
  rw [h4] at h
  simp only [Option.some_bind] at h
  rcases scr with ⟨s3, changes0, removedIds⟩
  rcases WF_deleteNodes hwf2 (hcand cands h3) h4 with ⟨hwf3, hcats3, _⟩
  have hfresh3 : ∀ n ∈ s3.nodes, n.id.createdAt ≠ editedAt := by
    intro n hn
    rcases hcats3 n hn with ⟨x2, hx2, he3⟩
    rcases hcats2 x2 hx2 with ⟨x1, hx1, he2⟩
    rcases hcats1 x1 hx1 with ⟨x0, hx0, he1⟩
    rw [he3, he2, he1]
    exact hfresh x0 hx0
  rcases value with _ | v
  · dsimp only at h
    injection h with h
    rw [← h]
    exact hwf3
  · dsimp only at h
    rcases h5 : findById s3.nodes fromLeft.id with _ | fl
    · rw [h5] at h
      simp at h
    rw [h5] at h
    simp only [Option.some_bind] at h
    rcases h6 : s3.posToIndex fl.createPosRange.2 true with _ | idx
    · rw [h6] at h
      simp at h
    rw [h6] at h
    simp only [Option.some_bind] at h
    rcases h7 : insertAfterL s3.nodes fromLeft.id
        ⟨⟨editedAt, 0⟩, some v, none, none⟩ with _ | nodes4
    · rw [h7] at h
      simp at h
    rw [h7] at h
    simp only [Option.some_bind] at h
    have hwf4 : WF ⟨nodes4⟩ := WF_insertAfter hwf3 hfresh3 hinit h7
    injection h with h
    rw [← h]
    exact hwf4

theorem applyAttrs_content (v : CRDTTextValue) (kvs : List (String × String))
    (ticket : TimeTicket) : (applyAttrs v kvs ticket).1.content = v.content := by
  induction kvs generalizing v with
  | nil => rfl
  | cons kv rest ih =>
    rw [applyAttrs]
    exact ih _

theorem WF_setAttrsOfNode {s : RGATreeSplit} (hwf : WF s)
    (nid : RGATreeSplitNodeID) (kvs : List (String × String))
    (ticket : TimeTicket) : WF (setAttrsOfNode s nid kvs ticket).1 := by
  show WF ⟨s.nodes.map _⟩
  apply WF_map_shape hwf
  · intro n
    by_cases h : n.id = nid
    · simp only [if_pos h]
    · simp only [if_neg h]
  · intro n
    by_cases h : n.id = nid
    · simp only [if_pos h]
      show RGATreeSplitNode.getContentLength _ = _
      unfold RGATreeSplitNode.getContentLength
      rcases n.value with _ | w
      · rfl
      · rfl
    · simp only [if_neg h]
  · intro n
    by_cases h : n.id = nid
    · simp only [if_pos h]
    · simp only [if_neg h]
  · by_cases h : headNode.id = nid
    · simp only [if_pos h]
      rfl
    · simp only [if_neg h]

theorem WF_styleNodes {editedAt : TimeTicket} {kvs : List (String × String)} :
    ∀ {l : List RGATreeSplitNode} {s : RGATreeSplit}
      {out : RGATreeSplit × List (RGATreeSplitNodeID × RHTEntry) ×
        List StyleChange},
    WF s → styleNodes editedAt kvs s l = some out → WF out.1 := by
  intro l
  induction l with
  | nil =>
    intro s out hwf h
    rw [styleNodes] at h
    injection h with h
    rw [← h]
    exact hwf
  | cons n rest ih =>
    intro s out hwf h
    rw [styleNodes] at h
    by_cases hr : n.isRemoved
    · rw [if_pos hr] at h
      exact ih hwf h
    · rw [if_neg hr] at h
      rcases h1 : s.findIndexesFromRange n.createPosRange with _ | ft
      · rw [h1] at h
        simp at h
      rw [h1] at h
      simp only [Option.bind_eq_bind, Option.some_bind] at h
      rcases ft with ⟨fi, ti⟩
      dsimp only at h
      rcases h2 : styleNodes editedAt kvs
          (setAttrsOfNode s n.id kvs editedAt).1 rest with _ | out2
      · rw [h2] at h
        simp at h
      rw [h2] at h
      simp only [Option.some_bind] at h
      rcases out2 with ⟨s2, pairs, chs⟩
      dsimp only at h
      injection h with h
      have hwf2 := ih (WF_setAttrsOfNode hwf n.id kvs editedAt) h2
      rw [← h]
      exact hwf2

theorem WF_setStyle {t : CRDTText} (hwf : WF t.rgaTreeSplit)
    {range : RGATreeSplitPos × RGATreeSplitPos}
    {attributes : List (String × String)} {editedAt : TimeTicket}
    {vv : Option VersionVector}
    {out : CRDTText × List (RGATreeSplitNodeID × RHTEntry) × List StyleChange}
    (h : t.setStyle range attributes editedAt vv = some out) :
    WF out.1.rgaTreeSplit := by
  unfold CRDTText.setStyle at h
  rcases h1 : t.rgaTreeSplit.findNodeWithSplit range.2 editedAt with _ | tlr
  · rw [h1] at h
    simp at h
  rw [h1] at h
  simp only [Option.bind_eq_bind, Option.some_bind] at h
  rcases tlr with ⟨s1, toLeft, toRight⟩
  rcases findNodeWithSplit_wf hwf h1 with ⟨hwf1, _, _, _, _⟩
  rcases h2 : s1.findNodeWithSplit range.1 editedAt with _ | flr
  · rw [h2] at h
    simp at h
  rw [h2] at h
  simp only [Option.some_bind] at h
  rcases flr with ⟨s2, fromLeft, fromRight⟩
  rcases findNodeWithSplit_wf hwf1 h2 with ⟨hwf2, _, _, _, _⟩
  dsimp only at h
  rcases h3 : editCandidates s2 fromRight toRight with _ | cands
  · rw [h3] at h
    simp at h
  rw [h3] at h
  simp only [Option.some_bind] at h
  rcases h4 : styleNodes editedAt attributes s2 (cands.filter (fun n =>
      n.canStyle editedAt
        (clientLamportAt vv n.id.createdAt.actor))) with _ | out3
  · rw [h4] at h
    simp at h
  rw [h4] at h
  simp only [Option.some_bind] at h
  rcases out3 with ⟨s3, pairs, chs⟩
  dsimp only at h
  injection h with h
  have hwf3 := WF_styleNodes hwf2 h4
  rw [← h]
  exact hwf3

/-- Every reachable state is well-formed. -/
theorem reachable_wf {s : RGATreeSplit} (hs : ReachableSplit s) : WF s := by
  induction hs with
  | init => exact WF_create
  | edit_step _ hfresh hinit hedit ih => exact WF_edit ih hfresh hinit hedit
  | style_step _ hstyle ih => exact WF_setStyle ih hstyle

theorem canDelete_iff (n : RGATreeSplitNode) (editedAt : TimeTicket)
    (cl : Nat) :
    n.canDelete editedAt cl = (specDeletable n editedAt cl &&
      n.removedAt.isNone) := by
  unfold RGATreeSplitNode.canDelete specDeletable
  cases hd : decide (n.id.createdAt.lamport ≤ cl) <;>
    cases hnr : notRemovedOrAfter editedAt n.removedAt <;>
    simp

/-- What the deletion phase reports and does: the removed ids are exactly the
`canDelete`-filtered candidates, and the new state tombstones exactly those
ids with `removedAt = editedAt`. -/
theorem deleteNodes_spec {s s' : RGATreeSplit}
    {candidates : List RGATreeSplitNode} {editedAt : TimeTicket}
    {vv : Option VersionVector} {changes : List ValueChange}
    {removedIds : List RGATreeSplitNodeID}
    (h : s.deleteNodes candidates editedAt vv = some (s', changes, removedIds)) :
    removedIds = (candidates.filter (fun c =>
      c.canDelete editedAt (clientLamportAt vv c.id.createdAt.actor))).map
        (fun c => c.id) ∧
    s'.nodes = s.nodes.map (fun n => if n.id ∈ removedIds then
      { n with removedAt := some editedAt } else n) := by
  unfold RGATreeSplit.deleteNodes at h
  by_cases hemp : candidates.isEmpty
  · rw [if_pos hemp] at h
    injection h with h
    rw [Prod.mk.injEq] at h
    obtain ⟨hs, h2⟩ := h
    rw [Prod.mk.injEq] at h2
    obtain ⟨_, hids⟩ := h2
    rw [List.isEmpty_iff] at hemp
    subst hemp
    refine ⟨by rw [← hids]; rfl, ?_⟩
    rw [← hids, ← hs]
    simp
  rw [if_neg hemp] at h
  rcases hf : s.filterNodes candidates editedAt vv with _ | dk
  · rw [hf] at h
    simp at h
  rw [hf] at h
  simp only [Option.bind_eq_bind, Option.some_bind] at h
  rcases dk with ⟨dels, keeps⟩
  rcases hm : s.makeChanges keeps editedAt with _ | chs
  · rw [hm] at h
    simp at h
  rw [hm] at h
  simp only [Option.some_bind] at h
  replace h : some
      ((⟨s.nodes.map (fun n =>
          if n.id ∈ dels.map (fun d => d.id) then { n with removedAt := some editedAt }
          else n)⟩ : RGATreeSplit), chs, dels.map (fun d => d.id)) =
      some (s', changes, removedIds) := h
  injection h with h
  rw [Prod.mk.injEq] at h
  obtain ⟨hs, h2⟩ := h
  rw [Prod.mk.injEq] at h2
  obtain ⟨_, hids⟩ := h2
  have hdels : dels = candidates.filter (fun c =>
      c.canDelete editedAt (clientLamportAt vv c.id.createdAt.actor)) := by
    unfold RGATreeSplit.filterNodes at hf
    rcases he : findEdgesOfCandidates s candidates with _ | lr
    · rw [he] at hf
      cases hf
    rw [he] at hf
    rcases lr with ⟨le, re⟩
    replace hf : some (candidates.filter (fun n =>
        n.canDelete editedAt (clientLamportAt vv n.id.createdAt.actor)),
        some le :: (candidates.filter (fun n =>
          !n.canDelete editedAt (clientLamportAt vv n.id.createdAt.actor))).map some
          ++ [re]) = some (dels, keeps) := hf
    injection hf with hf
    rw [Prod.mk.injEq] at hf
    exact hf.1.symm
  subst hdels
  exact ⟨hids.symm, by rw [← hids, ← hs]⟩

/-- Step decomposition of a successful `RGATreeSplit.edit`: the two splits,
the candidate walk and the deletion phase it went through, with the reported
garbage ids being the deletion phase's removed ids and every node of the
post-deletion state surviving unchanged into the final state. -/
theorem edit_decomp {s : RGATreeSplit}
    {range : RGATreeSplitPos × RGATreeSplitPos} {editedAt : TimeTicket}
    {value : Option CRDTTextValue} {vv : Option VersionVector} {r : EditResult}
    (h : s.edit range editedAt value vv = some r) :
    ∃ s1 toLeft toRight s2 fromLeft fromRight cands s3 changes0 removedIds,
      s.findNodeWithSplit range.2 editedAt = some (s1, toLeft, toRight) ∧
      s1.findNodeWithSplit range.1 editedAt = some (s2, fromLeft, fromRight) ∧
      editCandidates s2 fromRight toRight = some cands ∧
      s2.deleteNodes cands editedAt vv = some (s3, changes0, removedIds) ∧
      r.gcPairIds = removedIds ∧
      ∀ x ∈ s3.nodes, x ∈ r.state.nodes := by
  unfold RGATreeSplit.edit at h
  rcases h1 : s.findNodeWithSplit range.2 editedAt with _ | tlr
  · rw [h1] at h
    simp at h
  rw [h1] at h
  simp only [Option.bind_eq_bind, Option.some_bind] at h
  rcases tlr with ⟨s1, toLeft, toRight⟩
  rcases h2 : s1.findNodeWithSplit range.1 editedAt with _ | flr
  · rw [h2] at h
    simp at h
  rw [h2] at h
  simp only [Option.some_bind] at h
  rcases flr with ⟨s2, fromLeft, fromRight⟩
  dsimp only at h
  rcases h3 : editCandidates s2 fromRight toRight with _ | cands
  · rw [h3] at h
    simp at h
  rw [h3] at h
  simp only [Option.some_bind] at h
  rcases h4 : s2.deleteNodes cands editedAt vv with _ | scr
  · rw [h4] at h
    simp at h
  rw [h4] at h
  simp only [Option.some_bind] at h
  rcases scr with ⟨s3, changes0, removedIds⟩
  refine ⟨s1, toLeft, toRight, s2, fromLeft, fromRight, cands, s3, changes0,
    removedIds, rfl, h2, h3, h4, ?_⟩
  rcases value with _ | v
  · dsimp only at h
    injection h with h
    rw [← h]
    exact ⟨rfl, fun x hx => hx⟩
  · dsimp only at h
    rcases h5 : findById s3.nodes fromLeft.id with _ | fl
    · rw [h5] at h
      simp at h
    rw [h5] at h
    simp only [Option.some_bind] at h
    rcases h6 : s3.posToIndex fl.createPosRange.2 true with _ | idx
    · rw [h6] at h
      simp at h
    rw [h6] at h
    simp only [Option.some_bind] at h
    rcases h7 : insertAfterL s3.nodes fromLeft.id
        ⟨⟨editedAt, 0⟩, some v, none, none⟩ with _ | nodes4
    · rw [h7] at h
      simp at h
    rw [h7] at h
    simp only [Option.some_bind] at h
    injection h with h
    rw [← h]
    refine ⟨rfl, ?_⟩
    rcases insertAfterL_decomp h7 with ⟨l1, l2, hl, hl', _⟩
    intro x hx
    rw [hl] at hx
    show x ∈ nodes4
    rw [hl']
    rcases List.mem_append.mp hx with hx | hx
    · exact List.mem_append.mpr (Or.inl hx)
    · exact List.mem_append.mpr (Or.inr (List.mem_cons.mpr (Or.inr hx)))

/-- C1 (amended): in `RGATreeSplit.edit`, each delete candidate collected
between the two split boundaries is marked deletable if and only if
`candidate.createdAt.lamport ≤ clientLamportAtChange` AND its `removedAt` is
EMPTY AND (`removedAt` is empty or `editedAt.after(removedAt)`) — the
already-removed candidates are never deletable, unlike what the original
sentence states — where `clientLamportAtChange` is `versionVector[actor]` (or
0 when the actor is absent) if a version vector is supplied and `MaxLamport`
for a local edit; exactly the deletable candidates are tombstoned with
`removedAt = editedAt`. -/
theorem C1_deletable_candidates_tombstoned {s : RGATreeSplit}
    {range : RGATreeSplitPos × RGATreeSplitPos} {editedAt : TimeTicket}
    {value : Option CRDTTextValue} {vv : Option VersionVector} {r : EditResult}
    (h : s.edit range editedAt value vv = some r) :
    ∃ s1 toLeft toRight s2 fromLeft fromRight cands s3 changes0 removedIds,
      s.findNodeWithSplit range.2 editedAt = some (s1, toLeft, toRight) ∧
      s1.findNodeWithSplit range.1 editedAt = some (s2, fromLeft, fromRight) ∧
      editCandidates s2 fromRight toRight = some cands ∧
      s2.deleteNodes cands editedAt vv = some (s3, changes0, removedIds) ∧
      (∀ c, c.canDelete editedAt (clientLamportAt vv c.id.createdAt.actor) =
        (specDeletable c editedAt (clientLamportAt vv c.id.createdAt.actor) &&
          c.removedAt.isNone)) ∧
      removedIds = (cands.filter (fun c =>
        c.canDelete editedAt (clientLamportAt vv c.id.createdAt.actor))).map
          (fun c => c.id) ∧
      s3.nodes = s2.nodes.map (fun n => if n.id ∈ removedIds then
        { n with removedAt := some editedAt } else n) := by
  rcases edit_decomp h with ⟨s1, toLeft, toRight, s2, fromLeft, fromRight,
    cands, s3, changes0, removedIds, h1, h2, h3, h4, _, _⟩
  rcases deleteNodes_spec h4 with ⟨hids, hnodes⟩
  exact ⟨s1, toLeft, toRight, s2, fromLeft, fromRight, cands, s3, changes0,
    removedIds, h1, h2, h3, h4,
    fun c => canDelete_iff c editedAt (clientLamportAt vv c.id.createdAt.actor),
    hids, hnodes⟩

/-- The state with one already-tombstoned node "ab" (removed at lamport 2)
after the head sentinel, used to exhibit the `justRemoved` behaviour. -/
def cexC1A : RGATreeSplitNode :=
  ⟨⟨⟨1, 1, 1⟩, 0⟩, some ⟨['a', 'b'], []⟩, some ⟨2, 0, 1⟩, none⟩

/-- The one-node state holding `cexC1A`. -/
def cexC1State : RGATreeSplit := ⟨[headNode, cexC1A]⟩

theorem C1_deletable_candidates_tombstoned_witness :
    ∃ r, cexC1State.edit (⟨initialNodeID, 0⟩, ⟨⟨⟨1, 1, 1⟩, 0⟩, 2⟩) ⟨3, 0, 1⟩
        none none = some r ∧
      (∃ s1 toLeft toRight s2 fromLeft fromRight cands s3 changes0 removedIds,
        cexC1State.findNodeWithSplit ⟨⟨⟨1, 1, 1⟩, 0⟩, 2⟩ ⟨3, 0, 1⟩ =
          some (s1, toLeft, toRight) ∧
        s1.findNodeWithSplit ⟨initialNodeID, 0⟩ ⟨3, 0, 1⟩ =
          some (s2, fromLeft, fromRight) ∧
        editCandidates s2 fromRight toRight = some cands ∧
        s2.deleteNodes cands ⟨3, 0, 1⟩ none = some (s3, changes0, removedIds) ∧
        (∀ c, c.canDelete ⟨3, 0, 1⟩ (clientLamportAt none c.id.createdAt.actor) =
          (specDeletable c ⟨3, 0, 1⟩ (clientLamportAt none c.id.createdAt.actor) &&
            c.removedAt.isNone)) ∧
        removedIds = (cands.filter (fun c =>
          c.canDelete ⟨3, 0, 1⟩ (clientLamportAt none c.id.createdAt.actor))).map
            (fun c => c.id) ∧
        s3.nodes = s2.nodes.map (fun n => if n.id ∈ removedIds then
          { n with removedAt := some ⟨3, 0, 1⟩ } else n)) := by
  refine ⟨⟨cexC1State, ⟨⟨⟨1, 1, 1⟩, 0⟩, 0⟩, [], []⟩, by decide, ?_⟩
  exact C1_deletable_candidates_tombstoned
    (show cexC1State.edit (⟨initialNodeID, 0⟩, ⟨⟨⟨1, 1, 1⟩, 0⟩, 2⟩) ⟨3, 0, 1⟩
        none none =
      some ⟨cexC1State, ⟨⟨⟨1, 1, 1⟩, 0⟩, 0⟩, [], []⟩ from by decide)

/-- C1 counterexample to the original sentence: a local edit
(`versionVector = none`, so `clientLamportAtChange = MaxLamport`) whose only
collected candidate satisfies the claimed deletability condition — its
creation lamport is below `MaxLamport` and `editedAt` is after its
`removedAt` — yet the edit tombstones nothing: the candidate keeps its old
`removedAt` and no removed id is reported. -/
theorem C1_counterexample :
    specDeletable cexC1A ⟨3, 0, 1⟩ (clientLamportAt none 1) = true ∧
    cexC1State.findBetween cexC1A.id none = some [cexC1A] ∧
    ∃ r, cexC1State.edit (⟨initialNodeID, 0⟩, ⟨⟨⟨1, 1, 1⟩, 0⟩, 2⟩) ⟨3, 0, 1⟩
        none none = some r ∧
      r.gcPairIds = [] ∧
      r.state = cexC1State ∧
      ∀ n ∈ r.state.nodes, n.id = cexC1A.id → n.removedAt = some ⟨2, 0, 1⟩ := by
  refine ⟨by decide, by decide,
    ⟨cexC1State, ⟨⟨⟨1, 1, 1⟩, 0⟩, 0⟩, [], []⟩, by decide, by decide, by decide,
    by decide⟩

theorem editCandidates_mem {s2 : RGATreeSplit} (hwf2 : WF s2)
    {fromRight toRight : Option RGATreeSplitNode}
    (hfr : ∀ fr, fromRight = some fr → fr ∈ s2.nodes.tail)
    {cands : List RGATreeSplitNode}
    (h : editCandidates s2 fromRight toRight = some cands) :
    ∀ c ∈ cands, c ∈ s2.nodes.tail := by
  rcases fromRight with _ | fr
  · replace h : some ([] : List RGATreeSplitNode) = some cands := h
    injection h with h
    rw [← h]
    intro c hc
    cases hc
  · replace h : s2.findBetween fr.id (toRight.map (fun n => n.id)) =
      some cands := h
    have hfr_ne : fr.id ≠ initialNodeID := tail_ne_init hwf2 fr (hfr fr rfl)
    exact findBetween_tail hwf2 hfr_ne h

theorem findById_of_mem {nodes : List RGATreeSplitNode}
    (hnd : nodes.Pairwise (fun a b => a.id ≠ b.id)) {c : RGATreeSplitNode}
    (hc : c ∈ nodes) : findById nodes c.id = some c := by
  induction nodes with
  | nil => cases hc
  | cons a t ih =>
    rw [List.pairwise_cons] at hnd
    rcases List.mem_cons.mp hc with rfl | hc'
    · unfold findById
      rw [List.find?_cons_of_pos]
      simp
    · unfold findById
      rw [List.find?_cons_of_neg]
      · exact ih hnd.2 hc'
      · simp
        exact hnd.1 c hc'

theorem findBetween_sublist {s : RGATreeSplit} {fromId : RGATreeSplitNodeID}
    {toId : Option RGATreeSplitNodeID} {cands : List RGATreeSplitNode}
    (h : s.findBetween fromId toId = some cands) :
    cands.Sublist s.nodes := by
  unfold RGATreeSplit.findBetween at h
  rcases h1 : suffixFrom s.nodes fromId with _ | suf
  · rw [h1] at h
    simp at h
  rw [h1] at h
  simp only [Option.bind_eq_bind, Option.some_bind] at h
  replace h : some (suf.takeWhile (fun n => decide (some n.id ≠ toId))) =
      some cands := h
  injection h with h
  rcases suffixFrom_cons h1 with ⟨p, u, rest, hsuf, hl, _⟩
  rw [← h, hsuf]
  refine (List.takeWhile_sublist _).trans ?_
  rw [hl]
  exact List.sublist_append_right p _

theorem editCandidates_sublist {s2 : RGATreeSplit}
    {fromRight toRight : Option RGATreeSplitNode}
    {cands : List RGATreeSplitNode}
    (h : editCandidates s2 fromRight toRight = some cands) :
    cands.Sublist s2.nodes := by
  rcases fromRight with _ | fr
  · replace h : some ([] : List RGATreeSplitNode) = some cands := h
    injection h with h
    rw [← h]
    exact List.nil_sublist _
  · replace h : s2.findBetween fr.id (toRight.map (fun n => n.id)) =
      some cands := h
    exact findBetween_sublist h

theorem styleMap_id (nid : RGATreeSplitNodeID) (kvs : List (String × String))
    (ticket : TimeTicket) (m : RGATreeSplitNode) :
    (if m.id = nid then
      { m with value := m.value.map (fun w =>
        ⟨w.content, (applyAttrs w kvs ticket).1.attributes⟩) }
    else m).id = m.id := by
  by_cases h : m.id = nid
  · rw [if_pos h]
  · rw [if_neg h]

/-- What the styling loop reports and does, for a pairwise-distinct candidate
list drawn from a state with pairwise-distinct ids: one change entry per
non-tombstoned candidate carrying the edit's actor, GC pairs exactly the
entries the attribute application replaces on those candidates, the
non-tombstoned candidates' RHTs rewritten by the attribute application and
the tombstoned candidates (and all unrelated nodes) left untouched. -/
theorem styleNodes_spec {editedAt : TimeTicket} {kvs : List (String × String)} :
    ∀ {l : List RGATreeSplitNode} {s : RGATreeSplit}
      {out : RGATreeSplit × List (RGATreeSplitNodeID × RHTEntry) ×
        List StyleChange},
    s.nodes.Pairwise (fun a b => a.id ≠ b.id) →
    (∀ c ∈ l, c ∈ s.nodes) →
    l.Pairwise (fun a b => a.id ≠ b.id) →
    styleNodes editedAt kvs s l = some out →
    out.2.2.length = (l.filter (fun n => !n.isRemoved)).length ∧
    (∀ ch ∈ out.2.2, ch.actor = editedAt.actor) ∧
    out.2.1 = ((l.filter (fun n => !n.isRemoved)).map (fun c =>
      (match c.value with
        | none => ([] : List RHTEntry)
        | some v => (applyAttrs v kvs editedAt).2).map
          (fun p => (c.id, p)))).flatten ∧
    (∀ c ∈ l, ∃ y ∈ out.1.nodes, y.id = c.id ∧ y.removedAt = c.removedAt ∧
      y.value = (if c.isRemoved then c.value
        else c.value.map (fun w =>
          ⟨w.content, (applyAttrs w kvs editedAt).1.attributes⟩))) ∧
    (∀ x ∈ s.nodes, (∀ c ∈ l, x.id ≠ c.id) → x ∈ out.1.nodes) := by
  intro l
  induction l with
  | nil =>
    intro s out hnd hmem hl h
    rw [styleNodes] at h
    injection h with h
    rw [← h]
    refine ⟨rfl, ?_, rfl, ?_, ?_⟩
    · intro ch hch
      cases hch
    · intro c hc
      cases hc
    · intro x hx _
      exact hx
  | cons n rest ih =>
    intro s out hnd hmem hl h
    rw [styleNodes] at h
    rw [List.pairwise_cons] at hl
    by_cases hr : n.isRemoved = true
    · rw [if_pos hr] at h
      rcases ih hnd (fun c hc => hmem c (List.mem_cons.mpr (Or.inr hc)))
        hl.2 h with ⟨hlen, hact, hpairs, hnodes, hframe⟩
      have hfilt : (n :: rest).filter (fun m => !m.isRemoved) =
          rest.filter (fun m => !m.isRemoved) := by
        rw [List.filter_cons_of_neg]
        simp [hr]
      refine ⟨by rw [hfilt]; exact hlen, hact,
        by rw [hfilt]; exact hpairs, ?_, ?_⟩
      · intro c hc
        rcases List.mem_cons.mp hc with rfl | hc'
        · refine ⟨c, hframe c (hmem c (by simp)) (fun q hq => hl.1 q hq),
            rfl, rfl, ?_⟩
          rw [if_pos hr]
        · exact hnodes c hc'
      · intro x hx hxid
        exact hframe x hx (fun c hc => hxid c (List.mem_cons.mpr (Or.inr hc)))
    · rw [if_neg hr] at h
      rcases h1 : s.findIndexesFromRange n.createPosRange with _ | ft
      · rw [h1] at h
        simp at h
      rw [h1] at h
      simp only [Option.bind_eq_bind, Option.some_bind] at h
      rcases ft with ⟨fi, ti⟩
      dsimp only at h
      rcases h2 : styleNodes editedAt kvs
          (setAttrsOfNode s n.id kvs editedAt).1 rest with _ | out2
      · rw [h2] at h
        simp at h
      rw [h2] at h
      simp only [Option.some_bind] at h
      rcases out2 with ⟨s2, pairs2, chs2⟩
      dsimp only at h
      injection h with h
      have hn_mem : n ∈ s.nodes := hmem n (by simp)
      have hnd2 : (setAttrsOfNode s n.id kvs
          editedAt).1.nodes.Pairwise (fun a b => a.id ≠ b.id) := by
        show (s.nodes.map _).Pairwise _
        rw [List.pairwise_map]
        refine hnd.imp ?_
        intro a b hab heq
        apply hab
        rw [← styleMap_id n.id kvs editedAt a, ← styleMap_id n.id kvs editedAt b]
        exact heq
      have hmem2 : ∀ c ∈ rest, c ∈ (setAttrsOfNode s n.id kvs
          editedAt).1.nodes := by
        intro c hc
        have hcne : c.id ≠ n.id := fun he => (hl.1 c hc) he.symm
        show c ∈ s.nodes.map _
        refine List.mem_map.mpr ⟨c, hmem c (List.mem_cons.mpr (Or.inr hc)), ?_⟩
        rw [if_neg hcne]
      rcases ih hnd2 hmem2 hl.2 h2 with ⟨hlen, hact, hpairs, hnodes, hframe⟩
      dsimp only at hlen hact hpairs hnodes hframe
      have hfilt : (n :: rest).filter (fun m => !m.isRemoved) =
          n :: rest.filter (fun m => !m.isRemoved) := by
        rw [List.filter_cons_of_pos]
        simp [hr]
      have hsp2 : (setAttrsOfNode s n.id kvs editedAt).2 =
          (match n.value with
            | none => ([] : List RHTEntry)
            | some v => (applyAttrs v kvs editedAt).2) := by
        show (match findById s.nodes n.id with
          | none => ([] : List RHTEntry)
          | some m =>
            match m.value with
            | none => ([] : List RHTEntry)
            | some v => (applyAttrs v kvs editedAt).2) = _
        rw [findById_of_mem hnd hn_mem]
      rw [← h]
      refine ⟨?_, ?_, ?_, ?_, ?_⟩
      · dsimp only
        rw [hfilt]
        simp only [List.length_cons, hlen]
      · intro ch hch
        rcases List.mem_cons.mp hch with rfl | hch'
        · rfl
        · exact hact ch hch'
      · dsimp only
        rw [hfilt, List.map_cons, List.flatten_cons, hsp2, hpairs]
      · intro c hc
        rcases List.mem_cons.mp hc with rfl | hc'
        · have hy : ({c with value := c.value.map (fun w =>
              ⟨w.content, (applyAttrs w kvs editedAt).1.attributes⟩)} :
              RGATreeSplitNode) ∈
              (setAttrsOfNode s c.id kvs editedAt).1.nodes := by
            show _ ∈ s.nodes.map _
            refine List.mem_map.mpr ⟨c, hn_mem, ?_⟩
            rw [if_pos rfl]
          refine ⟨_, hframe _ hy (fun q hq he => (hl.1 q hq) he), rfl, rfl, ?_⟩
          rw [if_neg hr]
        · exact hnodes c hc'
      · intro x hx hxid
        have hx2 : x ∈ (setAttrsOfNode s n.id kvs editedAt).1.nodes := by
          show x ∈ s.nodes.map _
          refine List.mem_map.mpr ⟨x, hx, ?_⟩
          rw [if_neg (hxid n (by simp))]
        exact hframe x hx2 (fun c hc => hxid c (List.mem_cons.mpr (Or.inr hc)))

/-- C2 (amended): in `CRDTText.setStyle`, the node walk between the two split
boundaries is filtered by `canStyle` (with `clientLamportAtChange` equal to
`versionVector[actor]`, 0 when the actor is absent, and `MaxLamport` for a
local edit), and then the TOMBSTONED nodes among the admitted ones are
SKIPPED: only the non-tombstoned admitted nodes get `setAttr` applied for
every attribute entry (their RHTs rewritten by the attribute application,
replaced entries emitted as GC pairs) and exactly one style change entry per
non-tombstoned admitted node is emitted, carrying the edit's actor — a
tombstoned node passing `canStyle` receives no attribute and produces no
change entry, unlike what the original sentence states. -/
theorem C2_setStyle_skips_tombstones {t : CRDTText}
    (hwf : WF t.rgaTreeSplit)
    {range : RGATreeSplitPos × RGATreeSplitPos}
    {attributes : List (String × String)} {editedAt : TimeTicket}
    {vv : Option VersionVector}
    {out : CRDTText × List (RGATreeSplitNodeID × RHTEntry) × List StyleChange}
    (h : t.setStyle range attributes editedAt vv = some out) :
    ∃ s1 toLeft toRight s2 fromLeft fromRight cands toBeStyleds s3,
      t.rgaTreeSplit.findNodeWithSplit range.2 editedAt =
        some (s1, toLeft, toRight) ∧
      s1.findNodeWithSplit range.1 editedAt = some (s2, fromLeft, fromRight) ∧
      editCandidates s2 fromRight toRight = some cands ∧
      toBeStyleds = cands.filter (fun n =>
        n.canStyle editedAt (clientLamportAt vv n.id.createdAt.actor)) ∧
      styleNodes editedAt attributes s2 toBeStyleds =
        some (s3, out.2.1, out.2.2) ∧
      out.1.rgaTreeSplit = s3 ∧
      out.2.2.length =
        (toBeStyleds.filter (fun n => !n.isRemoved)).length ∧
      (∀ ch ∈ out.2.2, ch.actor = editedAt.actor) ∧
      out.2.1 = ((toBeStyleds.filter (fun n => !n.isRemoved)).map (fun c =>
        (match c.value with
          | none => ([] : List RHTEntry)
          | some v => (applyAttrs v attributes editedAt).2).map
            (fun p => (c.id, p)))).flatten ∧
      ∀ c ∈ toBeStyleds, ∃ y ∈ out.1.rgaTreeSplit.nodes, y.id = c.id ∧
        y.removedAt = c.removedAt ∧
        y.value = (if c.isRemoved then c.value
          else c.value.map (fun w =>
            ⟨w.content, (applyAttrs w attributes editedAt).1.attributes⟩)) := by
  unfold CRDTText.setStyle at h
  rcases h1 : t.rgaTreeSplit.findNodeWithSplit range.2 editedAt with _ | tlr
  · rw [h1] at h
    simp at h
  rw [h1] at h
  simp only [Option.bind_eq_bind, Option.some_bind] at h
  rcases tlr with ⟨s1, toLeft, toRight⟩
  rcases findNodeWithSplit_wf hwf h1 with ⟨hwf1, _, _, _, _⟩
  rcases h2 : s1.findNodeWithSplit range.1 editedAt with _ | flr
  · rw [h2] at h
    simp at h
  rw [h2] at h
  simp only [Option.some_bind] at h
  rcases flr with ⟨s2, fromLeft, fromRight⟩
  rcases findNodeWithSplit_wf hwf1 h2 with ⟨hwf2, _, _, _, _⟩
  dsimp only at h
  rcases h3 : editCandidates s2 fromRight toRight with _ | cands
  · rw [h3] at h
    simp at h
  rw [h3] at h
  simp only [Option.some_bind] at h
  rcases h4 : styleNodes editedAt attributes s2 (cands.filter (fun n =>
      n.canStyle editedAt
        (clientLamportAt vv n.id.createdAt.actor))) with _ | out3
  · rw [h4] at h
    simp at h
  rw [h4] at h
  simp only [Option.some_bind] at h
  rcases out3 with ⟨s3, pairs, chs⟩
  dsimp only at h
  injection h with h
  have hsub : (cands.filter (fun n => n.canStyle editedAt
      (clientLamportAt vv n.id.createdAt.actor))).Sublist s2.nodes :=
    (List.filter_sublist _).trans (editCandidates_sublist h3)
  rcases styleNodes_spec hwf2.ids_nodup (fun c hc => hsub.subset hc)
    (hwf2.ids_nodup.sublist hsub) h4 with ⟨hlen, hact, hpairs, hnodes, _⟩
  dsimp only at hlen hact hpairs hnodes
  refine ⟨s1, toLeft, toRight, s2, fromLeft, fromRight, cands, _, s3,
    rfl, h2, h3, rfl, ?_, ?_, ?_, ?_, ?_, ?_⟩
  · rw [← h]
    exact h4
  · rw [← h]
  · rw [← h]
    exact hlen
  · rw [← h]
    exact hact
  · rw [← h]
    exact hpairs
  · rw [← h]
    exact hnodes

/-- Well-formedness of the concrete one-tombstone state. -/
theorem cexC1_wf : WF cexC1State := by
  refine ⟨by decide, by decide, by decide, by decide, ?_, by decide⟩
  intro n hn pid hp
  have hn' : n = headNode ∨ n = cexC1A := by
    simpa [cexC1State] using hn
  rcases hn' with rfl | rfl
  · exact Option.noConfusion hp
  · exact Option.noConfusion hp

theorem C2_setStyle_skips_tombstones_witness :
    ∃ out, CRDTText.setStyle ⟨cexC1State, ⟨1, 1, 1⟩, none⟩
        (⟨initialNodeID, 0⟩, ⟨⟨⟨1, 1, 1⟩, 0⟩, 2⟩) [("b", "t")] ⟨3, 0, 1⟩ none =
        some out ∧
      (∃ s1 toLeft toRight s2 fromLeft fromRight cands toBeStyleds s3,
        cexC1State.findNodeWithSplit ⟨⟨⟨1, 1, 1⟩, 0⟩, 2⟩ ⟨3, 0, 1⟩ =
          some (s1, toLeft, toRight) ∧
        s1.findNodeWithSplit ⟨initialNodeID, 0⟩ ⟨3, 0, 1⟩ =
          some (s2, fromLeft, fromRight) ∧
        editCandidates s2 fromRight toRight = some cands ∧
        toBeStyleds = cands.filter (fun n =>
          n.canStyle ⟨3, 0, 1⟩ (clientLamportAt none n.id.createdAt.actor)) ∧
        styleNodes ⟨3, 0, 1⟩ [("b", "t")] s2 toBeStyleds =
          some (s3, out.2.1, out.2.2) ∧
        out.1.rgaTreeSplit = s3 ∧
        out.2.2.length =
          (toBeStyleds.filter (fun n => !n.isRemoved)).length ∧
        (∀ ch ∈ out.2.2, ch.actor = (⟨3, 0, 1⟩ : TimeTicket).actor) ∧
        out.2.1 = ((toBeStyleds.filter (fun n => !n.isRemoved)).map (fun c =>
          (match c.value with
            | none => ([] : List RHTEntry)
            | some v => (applyAttrs v [("b", "t")] ⟨3, 0, 1⟩).2).map
              (fun p => (c.id, p)))).flatten ∧
        ∀ c ∈ toBeStyleds, ∃ y ∈ out.1.rgaTreeSplit.nodes, y.id = c.id ∧
          y.removedAt = c.removedAt ∧
          y.value = (if c.isRemoved then c.value
            else c.value.map (fun w =>
              ⟨w.content,
                (applyAttrs w [("b", "t")] ⟨3, 0, 1⟩).1.attributes⟩))) := by
  refine ⟨(⟨cexC1State, ⟨1, 1, 1⟩, none⟩, [], []), ?_⟩
  refine ⟨by decide, ?_⟩
  exact C2_setStyle_skips_tombstones cexC1_wf
    (show CRDTText.setStyle ⟨cexC1State, ⟨1, 1, 1⟩, none⟩
        (⟨initialNodeID, 0⟩, ⟨⟨⟨1, 1, 1⟩, 0⟩, 2⟩) [("b", "t")] ⟨3, 0, 1⟩ none =
      some (⟨cexC1State, ⟨1, 1, 1⟩, none⟩, [], []) from by decide)

/-- C2 counterexample to the original sentence: a local style application
(`versionVector = none`) whose only candidate passes `canStyle` — its
creation lamport is below `MaxLamport` and `editedAt` is after its
`removedAt` — yet, the node being a tombstone, `setStyle` applies no
attribute (the node's RHT stays empty), emits no GC pair and emits no style
change entry. -/
theorem C2_counterexample :
    RGATreeSplitNode.canStyle cexC1A ⟨3, 0, 1⟩ (clientLamportAt none 1) =
      true ∧
    ∃ out, CRDTText.setStyle ⟨cexC1State, ⟨1, 1, 1⟩, none⟩
        (⟨initialNodeID, 0⟩, ⟨⟨⟨1, 1, 1⟩, 0⟩, 2⟩) [("b", "t")] ⟨3, 0, 1⟩ none =
        some out ∧
      out.2.1 = [] ∧
      out.2.2 = [] ∧
      out.1.rgaTreeSplit = cexC1State ∧
      ∀ n ∈ out.1.rgaTreeSplit.nodes, n.id = cexC1A.id →
        n.value = some ⟨['a', 'b'], []⟩ := by
  exact ⟨by decide, (⟨cexC1State, ⟨1, 1, 1⟩, none⟩, [], []),
    by decide, by decide, by decide, by decide, by decide⟩

theorem findFloorNode_exact {l : List RGATreeSplitNode}
    (hnd : l.Pairwise (fun a b => a.id ≠ b.id)) {m : RGATreeSplitNode}
    (hm : m ∈ l) : findFloorNode l m.id = some m := by
  have hsome := floorEntry_isSome hm (idle_refl m.id)
  rcases he : floorEntry l m.id with _ | e
  · rw [he] at hsome
    cases hsome
  rcases floorEntry_spec he with ⟨hemem, hele, hmax⟩
  have hme : e.id = m.id := idle_antisymm hele (hmax m hm (idle_refl m.id))
  have heq : e = m := nodup_id_eq hnd hemem hm hme
  subst heq
  unfold findFloorNode
  rw [he]
  show (if e.id = e.id ∨ e.id.hasSameCreatedAt e.id = true then some e
    else none) = some e
  rw [if_pos (Or.inl rfl)]

theorem deepcopy_fold :
    ∀ (tail acc : List RGATreeSplitNode),
    (acc ++ tail).Pairwise (fun a b => a.id ≠ b.id) →
    (∀ t1 n t2, tail = t1 ++ n :: t2 → ∀ pid, n.insPrev = some pid →
      pid ∈ (acc ++ t1).map (fun m => m.id)) →
    tail.foldl deepcopyStep acc = acc ++ tail := by
  intro tail
  induction tail with
  | nil =>
    intro acc _ _
    simp
  | cons n rest ih =>
    intro acc hnd hord
    rw [List.foldl_cons]
    have hstep : deepcopyStep acc n = acc ++ [n] := by
      unfold deepcopyStep
      show acc ++ [match n.insPrev with
        | none => n.deepcopyNode
        | some pid =>
          match findFloorNode acc pid with
          | none => n.deepcopyNode
          | some m => { n.deepcopyNode with insPrev := some m.id }] = acc ++ [n]
      rcases hip : n.insPrev with _ | pid
      · rcases n with ⟨i, v, r, ip⟩
        simp only at hip
        subst hip
        rfl
      · have hpid := hord [] n rest rfl pid hip
        simp only [List.append_nil] at hpid
        rcases List.mem_map.mp hpid with ⟨m, hm_mem, hm_id⟩
        have hnd_acc : acc.Pairwise (fun a b => a.id ≠ b.id) :=
          (List.pairwise_append.mp hnd).1
        have hfloor : findFloorNode acc pid = some m := by
          rw [← hm_id]
          exact findFloorNode_exact hnd_acc hm_mem
        show acc ++ [match findFloorNode acc pid with
          | none => n.deepcopyNode
          | some m => { n.deepcopyNode with insPrev := some m.id }] = acc ++ [n]
        rw [hfloor]
        show acc ++ [{ n.deepcopyNode with insPrev := some m.id }] = acc ++ [n]
        rw [hm_id]
        rcases n with ⟨i, v, r, ip⟩
        dsimp only at hip
        subst hip
        rfl
    rw [hstep]
    have hnd' : ((acc ++ [n]) ++ rest).Pairwise (fun a b => a.id ≠ b.id) := by
      rw [List.append_assoc]
      exact hnd
    have hord' : ∀ t1 m t2, rest = t1 ++ m :: t2 → ∀ pid,
        m.insPrev = some pid →
        pid ∈ ((acc ++ [n]) ++ t1).map (fun q => q.id) := by
      intro t1 m t2 hrest pid hip
      have := hord (n :: t1) m t2 (by rw [hrest, List.cons_append]) pid hip
      rw [List.append_assoc]
      exact this
    rw [ih (acc ++ [n]) hnd' hord', List.append_assoc]
    rfl

/-- C10: `deepcopy` is faithful.  On every state whose head sentinel sits
first, whose ids are distinct and whose `insPrev` links point backwards in
document order (all guaranteed for program-built splits), the deep copy has
in document order the same ids, values and `removedAt` tickets, its
`insPrev` links connect nodes with the same ids — the copy equals the state
in this embedding — and its visible string equals the original's. -/
theorem C10_deepcopy_faithful {s : RGATreeSplit}
    (hh : s.nodes.head? = some headNode)
    (hnd : s.nodes.Pairwise (fun a b => a.id ≠ b.id))
    (hord : ∀ t1 n t2, s.nodes.tail = t1 ++ n :: t2 → ∀ pid,
      n.insPrev = some pid → pid ∈ (headNode :: t1).map (fun m => m.id)) :
    s.deepcopy = s ∧ s.deepcopy.toStr = s.toStr := by
  have hcons : s.nodes = headNode :: s.nodes.tail := by
    rcases s with ⟨nodes⟩
    rcases nodes with _ | ⟨b, t⟩
    · cases hh
    · simp only [List.head?_cons, Option.some.injEq] at hh
      rw [hh]
      rfl
  have hmain : s.deepcopy = s := by
    unfold RGATreeSplit.deepcopy
    have := deepcopy_fold s.nodes.tail [headNode]
      (by rw [List.singleton_append, ← hcons]; exact hnd)
      (by
        intro t1 n t2 ht pid hip
        have := hord t1 n t2 ht pid hip
        rw [List.singleton_append]
        exact this)
    rw [this, List.singleton_append, ← hcons]
  exact ⟨hmain, by rw [hmain]⟩

/-- The split pair used by the deep-copy witness: "a" and its right half
"b", the latter carrying an `insPrev` link to the former. -/
def witA1 : RGATreeSplitNode := ⟨⟨⟨1, 1, 1⟩, 0⟩, some ⟨['a'], []⟩, none, none⟩

/-- Right half of the witness split pair. -/
def witA2 : RGATreeSplitNode :=
  ⟨⟨⟨1, 1, 1⟩, 1⟩, some ⟨['b'], []⟩, none, some ⟨⟨1, 1, 1⟩, 0⟩⟩

/-- The witness state `[head, witA1, witA2]`. -/
def witC10State : RGATreeSplit := ⟨[headNode, witA1, witA2]⟩

theorem C10_deepcopy_faithful_witness :
    witC10State.deepcopy = witC10State ∧
    witC10State.deepcopy.toStr = witC10State.toStr := by
  refine C10_deepcopy_faithful (by decide) (by decide) ?_
  intro t1 n t2 ht pid hip
  replace ht : [witA1, witA2] = t1 ++ n :: t2 := ht
  rcases t1 with _ | ⟨x, t1'⟩
  · rw [List.nil_append] at ht
    injection ht with h1 h2
    rw [← h1] at hip
    exact Option.noConfusion hip
  · injection ht with h1 h2
    rcases t1' with _ | ⟨y, t1''⟩
    · replace h2 : [witA2] = n :: t2 := h2
      injection h2 with h3 h4
      rw [← h3] at hip
      replace hip : some (⟨⟨1, 1, 1⟩, 0⟩ : RGATreeSplitNodeID) = some pid := hip
      injection hip with hip
      rw [← hip, ← h1]
      decide
    · replace h2 : [witA2] = y :: (t1''.append (n :: t2)) := h2
      injection h2 with _ h4
      exact absurd h4 (by simp)

/-- C9: tombstone immutability under edit.  `canDelete` returns false
whenever `removedAt` is already set, and consequently every node tombstoned
before a successful `RGATreeSplit.edit` (with or without a version vector)
keeps the exact same `removedAt` value after it. -/
theorem C9_tombstone_immutable {s : RGATreeSplit} (hwf : WF s)
    {range : RGATreeSplitPos × RGATreeSplitPos} {editedAt : TimeTicket}
    {value : Option CRDTTextValue} {vv : Option VersionVector} {r : EditResult}
    (h : s.edit range editedAt value vv = some r) :
    (∀ (n : RGATreeSplitNode) (e : TimeTicket) (cl : Nat),
      n.removedAt.isSome → n.canDelete e cl = false) ∧
    ∀ x ∈ s.nodes, x.removedAt.isSome →
      ∃ y ∈ r.state.nodes, y.id = x.id ∧ y.removedAt = x.removedAt := by
  have hcd : ∀ (n : RGATreeSplitNode) (e : TimeTicket) (cl : Nat),
      n.removedAt.isSome → n.canDelete e cl = false := by
    intro n e cl hrm
    rw [canDelete_iff]
    rw [Option.isSome_iff_exists] at hrm
    rcases hrm with ⟨t, ht⟩
    rw [ht]
    simp
  refine ⟨hcd, ?_⟩
  intro x hx hxrm
  rcases edit_decomp h with ⟨s1, toLeft, toRight, s2, fromLeft, fromRight,
    cands, s3, changes0, removedIds, h1, h2, h3, h4, _, hkeep⟩
  rcases findNodeWithSplit_wf hwf h1 with ⟨hwf1, _, hrem1, _, _⟩
  rcases findNodeWithSplit_wf hwf1 h2 with ⟨hwf2, _, hrem2, _, hright2⟩
  rcases hrem1 x hx with ⟨x1, hx1, hid1, hr1⟩
  rcases hrem2 x1 hx1 with ⟨x2, hx2, hid2, hr2⟩
  have hx2rm : x2.removedAt.isSome := by
    rw [hr2, hr1]
    exact hxrm
  rcases WF_deleteNodes hwf2 (fun c hc =>
      tail_ne_init hwf2 c (editCandidates_mem hwf2 hright2 h3 c hc)) h4 with
    ⟨_, _, hrem3⟩
  rcases hrem3 x2 hx2 with ⟨y, hy, hyid, hyrm⟩
  have hnotin : x2.id ∉ removedIds := by
    intro hin
    rcases deleteNodes_spec h4 with ⟨hids, _⟩
    rw [hids] at hin
    rcases List.mem_map.mp hin with ⟨c, hc, hcid⟩
    have hc_del := List.of_mem_filter hc
    have hc_mem : c ∈ cands := List.mem_of_mem_filter hc
    have hc_in_s2 : c ∈ s2.nodes :=
      List.mem_of_mem_tail (editCandidates_mem hwf2 hright2 h3 c hc_mem)
    have hceq : c = x2 := nodup_id_eq hwf2.ids_nodup hc_in_s2 hx2 hcid
    rw [hceq] at hc_del
    rw [hcd x2 editedAt (clientLamportAt vv x2.id.createdAt.actor) hx2rm]
      at hc_del
    cases hc_del
  rw [if_neg hnotin] at hyrm
  exact ⟨y, hkeep y hy, by rw [hyid, hid2, hid1],
    by rw [hyrm, hr2, hr1]⟩

theorem C9_tombstone_immutable_witness :
    (∀ (n : RGATreeSplitNode) (e : TimeTicket) (cl : Nat),
      n.removedAt.isSome → n.canDelete e cl = false) ∧
    ∀ x ∈ cexC1State.nodes, x.removedAt.isSome →
      ∃ y ∈ cexC1State.nodes, y.id = x.id ∧ y.removedAt = x.removedAt := by
  have hwf : WF cexC1State := by
    refine ⟨by decide, by decide, by decide, by decide, ?_, by decide⟩
    intro n hn pid hp
    have hn' : n = headNode ∨ n = cexC1A := by
      simpa [cexC1State] using hn
    rcases hn' with rfl | rfl
    · exact Option.noConfusion hp
    · exact Option.noConfusion hp
  exact C9_tombstone_immutable hwf
    (show cexC1State.edit (⟨initialNodeID, 0⟩, ⟨⟨⟨1, 1, 1⟩, 0⟩, 2⟩) ⟨3, 0, 1⟩
        none none =
      some ⟨cexC1State, ⟨⟨⟨1, 1, 1⟩, 0⟩, 0⟩, [], []⟩ from by decide)

/-- C5: `toChange` on a presence-only context (empty operation list) returns
a change whose id is `prevID.next(true)`, and that id keeps the previous
id's lamport — a presence-only change consumes no lamport; with a non-empty
operation list the change id is the constructor's
`nextID = prevID.next(false)`. -/
theorem C5_presence_only_change_id (ctx : ChangeContextM)
    (hctx : ctx.nextID = ctx.prevID.next false) :
    (ctx.operations = [] →
      ctx.toChange.id = ctx.prevID.next true ∧
      ctx.toChange.id.lamport = ctx.prevID.lamport) ∧
    (ctx.operations ≠ [] →
      ctx.toChange.id = ctx.prevID.next false) := by
  constructor
  · intro hops
    have hpo : ctx.isPresenceOnlyChange = true := by
      unfold ChangeContextM.isPresenceOnlyChange
      rw [hops]
      rfl
    unfold ChangeContextM.toChange
    rw [if_pos hpo]
    exact ⟨rfl, rfl⟩
  · intro hops
    have hpo : ctx.isPresenceOnlyChange = false := by
      unfold ChangeContextM.isPresenceOnlyChange
      simp only [decide_eq_false_iff_not, List.length_eq_zero]
      exact hops
    unfold ChangeContextM.toChange
    rw [if_neg (by rw [hpo]; exact Bool.false_ne_true)]
    exact hctx

/-- A concrete change id for the document-layer witnesses. -/
def witCID : ChangeID := ⟨3, 4, 5, 7, ⟨[(7, 5)]⟩⟩

theorem C5_presence_only_change_id_witness :
    ((ChangeContextM.create witCID).operations = [] →
      (ChangeContextM.create witCID).toChange.id = witCID.next true ∧
      (ChangeContextM.create witCID).toChange.id.lamport = witCID.lamport) ∧
    ((ChangeContextM.create witCID).operations ≠ [] →
      (ChangeContextM.create witCID).toChange.id = witCID.next false) :=
  C5_presence_only_change_id (ChangeContextM.create witCID) (by decide)

/-- C4: if `Document.update` fails because the mutator threw, the schema
validation failed or the size limit was exceeded, the speculative clone is
discarded (set to `none`) and the error is returned to the caller, while the
authoritative root, the presences, the pending local changes, the change id
and the undo/redo history are exactly as before the call. -/
theorem C4_update_error_rollback {d : DocStateM}
    {mutator : CRDTRootM → PresencesM →
      Option (CRDTRootM × PresencesM × List OperationM × Option Nat)}
    {validate : CRDTRootM → Bool}
    {execChange : ChangeM → CRDTRootM → PresencesM →
      CRDTRootM × PresencesM × Nat × List HistoryOpM}
    {d' : DocStateM} {e : ErrM}
    (h : Document.update d mutator validate execChange = (d', some e))
    (he : e = ErrM.mutatorThrew ∨ e = ErrM.schemaValidationFailed ∨
      e = ErrM.sizeExceedsLimit) :
    d'.clone = none ∧ d'.root = d.root ∧ d'.presences = d.presences ∧
    d'.localChanges = d.localChanges ∧ d'.changeID = d.changeID ∧
    d'.undoStack = d.undoStack ∧ d'.redoStack = d.redoStack := by
  unfold Document.update at h
  by_cases hst : d.status = DocStatusM.removed
  · rw [if_pos hst] at h
    rw [Prod.mk.injEq] at h
    obtain ⟨_, h2⟩ := h
    injection h2 with h2
    rcases he with rfl | rfl | rfl <;> cases h2
  · rw [if_neg hst] at h
    dsimp only at h
    rcases hm : mutator (d.clone.getD (d.root, d.presences)).1
        (d.clone.getD (d.root, d.presences)).2 with _ | res
    · rw [hm] at h
      dsimp only at h
      rw [Prod.mk.injEq] at h
      obtain ⟨h1, _⟩ := h
      rw [← h1]
      exact ⟨rfl, rfl, rfl, rfl, rfl, rfl, rfl⟩
    · rw [hm] at h
      rcases res with ⟨croot, cpres, ops, pch⟩
      dsimp only at h
      by_cases hc1 : ¬ ({ChangeContextM.create d.changeID with
          operations := ops,
          presenceChange := pch} : ChangeContextM).isPresenceOnlyChange ∧
          0 < d.schemaRulesCount ∧ validate croot = false
      · rw [if_pos hc1] at h
        rw [Prod.mk.injEq] at h
        obtain ⟨h1, _⟩ := h
        rw [← h1]
        exact ⟨rfl, rfl, rfl, rfl, rfl, rfl, rfl⟩
      · rw [if_neg hc1] at h
        by_cases hc2 : ¬ ({ChangeContextM.create d.changeID with
            operations := ops,
            presenceChange := pch} : ChangeContextM).isPresenceOnlyChange ∧
            0 < d.maxSizeLimit ∧ d.maxSizeLimit < croot.docSize
        · rw [if_pos hc2] at h
          rw [Prod.mk.injEq] at h
          obtain ⟨h1, _⟩ := h
          rw [← h1]
          exact ⟨rfl, rfl, rfl, rfl, rfl, rfl, rfl⟩
        · rw [if_neg hc2] at h
          by_cases hc3 : ({ChangeContextM.create d.changeID with
              operations := ops,
              presenceChange := pch} : ChangeContextM).hasChange = true
          · rw [if_pos hc3] at h
            rw [Prod.mk.injEq] at h
            obtain ⟨_, h2⟩ := h
            cases h2
          · rw [if_neg hc3] at h
            rw [Prod.mk.injEq] at h
            obtain ⟨_, h2⟩ := h
            cases h2

/-- The concrete document state used by the document-layer witnesses. -/
def witDoc : DocStateM :=
  ⟨DocStatusM.attached, ⟨[], 10⟩, [(7, 0)], none, witCID, [], [], [],
    false, 100, 0⟩

/-- The state `witDoc` reaches when its mutator throws. -/
def witDocErr : DocStateM := { witDoc with clone := none, isUpdating := false }

theorem C4_update_error_rollback_witness :
    witDocErr.clone = none ∧ witDocErr.root = witDoc.root ∧
    witDocErr.presences = witDoc.presences ∧
    witDocErr.localChanges = witDoc.localChanges ∧
    witDocErr.changeID = witDoc.changeID ∧
    witDocErr.undoStack = witDoc.undoStack ∧
    witDocErr.redoStack = witDoc.redoStack :=
  C4_update_error_rollback
    (show Document.update witDoc (fun _ _ => none) (fun _ => true)
        (fun _ r p => (r, p, 0, [])) = (witDocErr, some ErrM.mutatorThrew)
      from by decide)
    (Or.inl rfl)

/-- C6 (amended): for every call to `Document.update` on a live document in
which the mutator succeeds WITH AT LEAST ONE OPERATION — the size check is
skipped entirely for presence-only changes, unlike what the original
sentence states — the schema check passes, `maxSizeLimit > 0` and the
clone's total live+gc size exceeds `maxSizeLimit`, update discards the clone
and fails with `SizeExceedsLimit`. -/
theorem C6_size_limit {d : DocStateM}
    {mutator : CRDTRootM → PresencesM →
      Option (CRDTRootM × PresencesM × List OperationM × Option Nat)}
    {validate : CRDTRootM → Bool}
    {execChange : ChangeM → CRDTRootM → PresencesM →
      CRDTRootM × PresencesM × Nat × List HistoryOpM}
    {croot : CRDTRootM} {cpres : PresencesM} {ops : List OperationM}
    {pch : Option Nat}
    (hst : d.status ≠ DocStatusM.removed)
    (hmut : mutator (d.clone.getD (d.root, d.presences)).1
      (d.clone.getD (d.root, d.presences)).2 = some (croot, cpres, ops, pch))
    (hops : ops ≠ [])
    (hschema : ¬ (0 < d.schemaRulesCount ∧ validate croot = false))
    (hsz1 : 0 < d.maxSizeLimit) (hsz2 : d.maxSizeLimit < croot.docSize) :
    ∃ d', Document.update d mutator validate execChange =
      (d', some ErrM.sizeExceedsLimit) ∧ d'.clone = none := by
  unfold Document.update
  rw [if_neg hst]
  dsimp only
  rw [hmut]
  dsimp only
  have hpo : ({ChangeContextM.create d.changeID with
      operations := ops,
      presenceChange := pch} : ChangeContextM).isPresenceOnlyChange = false := by
    unfold ChangeContextM.isPresenceOnlyChange
    simp only [decide_eq_false_iff_not, List.length_eq_zero]
    exact hops
  rw [if_neg (by
    intro hc
    exact hschema hc.2)]
  rw [if_pos (by
    refine ⟨?_, hsz1, hsz2⟩
    rw [hpo]
    exact Bool.false_ne_true)]
  exact ⟨_, rfl, rfl⟩

theorem C6_size_limit_witness :
    ∃ d', Document.update witDoc
        (fun _ p => some (⟨[], 1000⟩, p, [OperationM.otherOp 0], none))
        (fun _ => true) (fun _ r p => (r, p, 0, [])) =
      (d', some ErrM.sizeExceedsLimit) ∧ d'.clone = none :=
  @C6_size_limit witDoc
    (fun _ p => some (⟨[], 1000⟩, p, [OperationM.otherOp 0], none))
    (fun _ => true) (fun _ r p => (r, p, 0, []))
    ⟨[], 1000⟩ [(7, 0)] [OperationM.otherOp 0] none
    (by decide) (by decide) (by decide) (by decide) (by decide) (by decide)

/-- C6 counterexample to the original sentence: a presence-only update on a
document with `maxSizeLimit = 100` whose clone reaches size 1000 does NOT
fail — it returns no error, keeps the oversized clone and commits the
presence-only change. -/
theorem C6_counterexample :
    0 < witDoc.maxSizeLimit ∧ witDoc.maxSizeLimit < (1000 : Nat) ∧
    ∃ d', Document.update witDoc
        (fun _ p => some (⟨[], 1000⟩, p, [], some 1)) (fun _ => true)
        (fun _ r p => (r, p, 0, [])) = (d', none) ∧
      d'.clone = some (⟨[], 1000⟩, witDoc.presences) := by
  refine ⟨by decide, by decide,
    ({ witDoc with
      clone := some (⟨[], 1000⟩, witDoc.presences),
      changeID := ⟨4, 4, 5, 7, ⟨[(7, 5)]⟩⟩,
      localChanges := [⟨⟨4, 4, 5, 7, ⟨[(7, 5)]⟩⟩, [], some 1⟩],
      isUpdating := false } : DocStateM), by decide, by decide⟩

/-- C7: `Document.undo` raises `Refused` iff `isUpdating` is set or the undo
stack is empty, and `Document.redo` raises `Refused` iff `isUpdating` is set
or the redo stack is empty — the bodies past the guards never raise
`Refused` (hypotheses `hu`/`hr`, matching the source where `ErrRefused`
appears only in these guards); in the error case the document state,
including both stacks, is returned unchanged. -/
theorem C7_undo_redo_refused (d : DocStateM)
    (ubody rbody : DocStateM → List HistoryOpM → DocStateM × Option ErrM)
    (hu : ∀ s ops, (ubody s ops).2 ≠ some ErrM.refused)
    (hr : ∀ s ops, (rbody s ops).2 ≠ some ErrM.refused) :
    ((Document.undo d ubody).2 = some ErrM.refused ↔
      (d.isUpdating = true ∨ d.undoStack = [])) ∧
    ((Document.redo d rbody).2 = some ErrM.refused ↔
      (d.isUpdating = true ∨ d.redoStack = [])) ∧
    ((d.isUpdating = true ∨ d.undoStack = []) →
      (Document.undo d ubody).1 = d) ∧
    ((d.isUpdating = true ∨ d.redoStack = []) →
      (Document.redo d rbody).1 = d) := by
  unfold Document.undo Document.redo
  by_cases hup : d.isUpdating = true
  · rw [if_pos hup, if_pos hup]
    exact ⟨⟨fun _ => Or.inl hup, fun _ => rfl⟩,
      ⟨fun _ => Or.inl hup, fun _ => rfl⟩, fun _ => rfl, fun _ => rfl⟩
  · rw [if_neg hup, if_neg hup]
    refine ⟨?_, ?_, ?_, ?_⟩
    · rcases hus : d.undoStack with _ | ⟨ops, rest⟩
      · exact ⟨fun _ => Or.inr rfl, fun _ => rfl⟩
      · constructor
        · intro habs
          exact absurd habs (hu _ _)
        · intro hor
          rcases hor with hor | hor
          · exact absurd hor hup
          · cases hor
    · rcases hrs : d.redoStack with _ | ⟨ops, rest⟩
      · exact ⟨fun _ => Or.inr rfl, fun _ => rfl⟩
      · constructor
        · intro habs
          exact absurd habs (hr _ _)
        · intro hor
          rcases hor with hor | hor
          · exact absurd hor hup
          · cases hor
    · intro hor
      rcases hor with hor | hor
      · exact absurd hor hup
      · rw [hor]
    · intro hor
      rcases hor with hor | hor
      · exact absurd hor hup
      · rw [hor]

theorem C7_undo_redo_refused_witness :
    ((Document.undo witDoc (fun s _ => (s, none))).2 = some ErrM.refused ↔
      (witDoc.isUpdating = true ∨ witDoc.undoStack = [])) ∧
    ((Document.redo witDoc (fun s _ => (s, none))).2 = some ErrM.refused ↔
      (witDoc.isUpdating = true ∨ witDoc.redoStack = [])) ∧
    ((witDoc.isUpdating = true ∨ witDoc.undoStack = []) →
      (Document.undo witDoc (fun s _ => (s, none))).1 = witDoc) ∧
    ((witDoc.isUpdating = true ∨ witDoc.redoStack = []) →
      (Document.redo witDoc (fun s _ => (s, none))).1 = witDoc) :=
  C7_undo_redo_refused witDoc (fun s _ => (s, none)) (fun s _ => (s, none))
    (fun _ _ h => Option.noConfusion h) (fun _ _ h => Option.noConfusion h)

/-- C8: `StyleOperation.execute` raises `ErrInvalidArgument` "fail to find"
exactly when no element with the operation's `parentCreatedAt` exists in the
root's element map, and `ErrInvalidArgument` "only Text can execute edit"
exactly when the element found is not a text; when a text parent is found,
neither lookup error is raised. -/
theorem C8_style_operation_lookup (parentCreatedAt : TimeTicket)
    (fromPos toPos : RGATreeSplitPos)
    (attributes : List (String × String)) (executedAt : TimeTicket)
    (root : CRDTRootM) (vv : Option VersionVector) :
    (StyleOperationM.execute parentCreatedAt fromPos toPos attributes
        executedAt root vv = Except.error ErrM.invalidArgumentFailToFind ↔
      root.findByCreatedAt parentCreatedAt = none) ∧
    (StyleOperationM.execute parentCreatedAt fromPos toPos attributes
        executedAt root vv = Except.error ErrM.invalidArgumentOnlyText ↔
      ∃ c, root.findByCreatedAt parentCreatedAt =
        some (ElementM.otherElem c)) := by
  unfold StyleOperationM.execute
  rcases hf : root.findByCreatedAt parentCreatedAt with _ | el
  · simp
  · rcases el with t | c
    · rcases hs : t.setStyle (fromPos, toPos) attributes executedAt vv
        with _ | out
      · simp [hs]
      · rcases out with ⟨t', pairs, chs⟩
        simp [hs]
    · simp

theorem C8_style_operation_lookup_witness :
    (StyleOperationM.execute ⟨1, 1, 1⟩ ⟨initialNodeID, 0⟩ ⟨initialNodeID, 0⟩
        [] ⟨3, 0, 1⟩ ⟨[], 0⟩ none =
        Except.error ErrM.invalidArgumentFailToFind ↔
      CRDTRootM.findByCreatedAt ⟨[], 0⟩ ⟨1, 1, 1⟩ = none) ∧
    (StyleOperationM.execute ⟨1, 1, 1⟩ ⟨initialNodeID, 0⟩ ⟨initialNodeID, 0⟩
        [] ⟨3, 0, 1⟩ ⟨[], 0⟩ none =
        Except.error ErrM.invalidArgumentOnlyText ↔
      ∃ c, CRDTRootM.findByCreatedAt ⟨[], 0⟩ ⟨1, 1, 1⟩ =
        some (ElementM.otherElem c)) :=
  C8_style_operation_lookup ⟨1, 1, 1⟩ ⟨initialNodeID, 0⟩ ⟨initialNodeID, 0⟩
    [] ⟨3, 0, 1⟩ ⟨[], 0⟩ none

/-- C3: for every `RGATreeSplit` state reachable after any sequence of local
and remote changes (edits and style applications), and every index `i` with
`0 ≤ i ≤ length`, `posToIndex (indexToPos i) true = i`: the index-to-position
mapping round-trips. -/
theorem C3_posToIndex_indexToPos_roundtrip {s : RGATreeSplit}
    (hs : ReachableSplit s) {i : Nat} (hi : i ≤ s.length) :
    (s.indexToPos i).bind (fun p => s.posToIndex p true) = some i :=
  rga_roundtrip (reachable_wf hs) hi

/-- The state reached by inserting "hi" into the fresh text, together with
the caret, GC and change output of that edit. -/
def witEditResult : EditResult :=
  ⟨⟨[headNode, ⟨⟨⟨1, 1, 0⟩, 0⟩, some ⟨['h', 'i'], []⟩, none, none⟩]⟩,
    ⟨⟨⟨1, 1, 0⟩, 0⟩, 2⟩, [],
    [⟨0, 0, 0, some ⟨['h', 'i'], []⟩⟩]⟩

theorem C3_posToIndex_indexToPos_roundtrip_witness :
    (witEditResult.state.indexToPos 1).bind
      (fun p => witEditResult.state.posToIndex p true) = some 1 :=
  C3_posToIndex_indexToPos_roundtrip
    (@ReachableSplit.edit_step RGATreeSplit.create
      (⟨initialNodeID, 0⟩, ⟨initialNodeID, 0⟩) ⟨1, 1, 0⟩
      (some ⟨['h', 'i'], []⟩) none witEditResult ReachableSplit.init
      (by decide) (by decide) (by decide))
    (by decide)

end Yorkie
